import Mathlib

/-!
Verification model of opustags (hackerb9/opustags, src/opustags.cc).

The orchestrator (`same_file`, `process_tags`, `run`) is translated from the
source file.  The comment codec (`parse_tags`, `render_tags`, `delete_tags`,
`read_comments`, `print_comments`), the identification-header validator and
the Ogg page/packet machinery are declared in the repository's header but
their definitions are not part of the provided source; they are modelled
from the specification (sections 3, 4.1 to 4.5).

Bytes are modelled as natural numbers (well-formed data keeps them below
256); byte strings are lists of bytes; machine integers that the format
stores are handled with explicit modular arithmetic where it matters.
-/

namespace Opustags

/-- Little-endian 32-bit encoding of a natural number (4 bytes). -/
def le32 (n : Nat) : List Nat :=
  [n % 256, n / 256 % 256, n / 65536 % 256, n / 16777216 % 256]

/-- Read a little-endian 32-bit integer from the front of a byte list. -/
def readLE32 : List Nat → Option (Nat × List Nat)
  | a :: b :: c :: d :: rest => some (a + 256 * (b + 256 * (c + 256 * d)), rest)
  | _ => none

/-- Read exactly `n` bytes from the front of a byte list. -/
def readBytes (n : Nat) (l : List Nat) : Option (List Nat × List Nat) :=
  if n ≤ l.length then some (l.take n, l.drop n) else none

/-- ASCII lower-casing of one byte, used for case-insensitive key matching. -/
def asciiLower (b : Nat) : Nat :=
  if 65 ≤ b ∧ b ≤ 90 then b + 32 else b

/-- The magic signature of the OpusTags comment header ("OpusTags"). -/
def opusTagsMagic : List Nat := [79, 112, 117, 115, 84, 97, 103, 115]

/-- The magic signature of the identification header ("OpusHead"). -/
def opusHeadMagic : List Nat := [79, 112, 117, 115, 72, 101, 97, 100]

/-- Modelled from the spec (§3): the OpusTags comment block, a vendor string
and an ordered list of opaque comment entries, both raw byte strings. -/
structure opus_tags where
  vendor : List Nat
  comments : List (List Nat)
deriving DecidableEq, Repr

/-- Read `n` length-prefixed entries from the front of a byte list. -/
def readEntries : Nat → List Nat → Option (List (List Nat) × List Nat)
  | 0, rest => some ([], rest)
  | n + 1, rest => do
    let (len, r1) ← readLE32 rest
    let (e, r2) ← readBytes len r1
    let (es, r3) ← readEntries n r2
    some (e :: es, r3)

/-- Modelled from the spec (§4.4, `parse`), `ot::parse_tags` not being part of
the provided source: check the leading magic signature, read the
length-prefixed vendor string, the 32-bit little-endian comment count and
that many length-prefixed entries; any truncation mid-structure fails.  The
packet is required to be exactly consumed. -/
def parse_tags (p : List Nat) : Option opus_tags :=
  if p.take 8 = opusTagsMagic then
    match readLE32 (p.drop 8) with
    | none => none
    | some (vlen, r1) =>
      match readBytes vlen r1 with
      | none => none
      | some (vendor, r2) =>
        match readLE32 r2 with
        | none => none
        | some (count, r3) =>
          match readEntries count r3 with
          | none => none
          | some (comments, r4) =>
            if r4 = [] then some ⟨vendor, comments⟩ else none
  else none

/-- Modelled from the spec (§4.4, `render`), `ot::render_tags` not being part
of the provided source: magic signature, length-prefixed vendor string
(unchanged), 32-bit little-endian entry count, then each entry
length-prefixed.  No padding is added. -/
def render_tags (t : opus_tags) : List Nat :=
  opusTagsMagic ++ le32 t.vendor.length ++ t.vendor ++ le32 t.comments.length
    ++ t.comments.flatMap (fun c => le32 c.length ++ c)

/-- The key of a comment entry: the bytes before the first "=" (byte 61). -/
def tagKey (e : List Nat) : List Nat := e.takeWhile (fun b => b ≠ 61)

/-- Case-insensitive match of a deletion name against an entry's key. -/
def keyMatches (name e : List Nat) : Bool :=
  (tagKey e).map asciiLower == name.map asciiLower

/-- Modelled from the spec (§4.4(a), §9), `ot::delete_tags` not being part of
the provided source: delete every entry whose key matches the given name
case-insensitively; the vendor string and the order of the surviving
entries are untouched. -/
def delete_tags (t : opus_tags) (name : List Nat) : opus_tags :=
  ⟨t.vendor, t.comments.filter (fun e => ! keyMatches name e)⟩

/-- CLI options relevant to the core, as supplied by the option source
collaborator (§6): edit operations plus the path and overwrite flags used
by `run`. -/
structure options where
  delete_all : Bool
  to_delete : List (List Nat)
  set_all : Bool
  to_add : List (List Nat)
  path_in : String
  path_out : String
  inplace : Option String
  overwrite : Bool
deriving Repr

/-- The edit pipeline of `process_tags` (opustags.cc lines 38 to 48): clear or
delete, then optional wholesale replacement from stdin, then append. -/
def editTags (opt : options) (stdin : List (List Nat)) (t : opus_tags) : opus_tags :=
  let t1 := if opt.delete_all then { t with comments := [] }
            else opt.to_delete.foldl (fun acc name => delete_tags acc name) t
  let t2 := if opt.set_all then { t1 with comments := stdin } else t1
  { t2 with comments := t2.comments ++ opt.to_add }

/-- What `process_tags` does with the edited tags: in write mode the rendered
packet is submitted to the writer stream, in read mode the comments are
printed to the comment sink. -/
inductive tagsAction where
  | packetIn (bytes : List Nat)
  | printed (comments : List (List Nat))
deriving DecidableEq, Repr

/-- Translation of `process_tags` (opustags.cc lines 32 to 59): parse the
packet as an OpusTags header (failure is `bad_comment_header`, here
`none`), apply the edits, then either render and submit the new packet
(write mode) or print the comment list (read mode). -/
def process_tags (packet : List Nat) (opt : options) (writeMode : Bool)
    (stdin : List (List Nat)) : Option tagsAction :=
  match parse_tags packet with
  | none => none
  | some tags =>
    let tags := editTags opt stdin tags
    if writeMode then some (.packetIn (render_tags tags))
    else some (.printed tags.comments)

/-- Modelled from the spec (§4.3), `ot::validate_identification_header` not
being part of the provided source: the packet's leading bytes must equal
the fixed magic signature; a payload too short to contain it fails. -/
def validate_identification_header (p : List Nat) : Bool :=
  p.take 8 == opusHeadMagic

/-! ## Ogg page and packet model

Modelled from the spec (§3, §4.1, §4.2, §4.5), the page codec and the libogg
stream machinery not being part of the provided source.  A page carries its
header fields and the list of segment byte strings given by the lacing
table; a segment of length exactly 255 continues the current packet, a
shorter one ends it. -/

/-- An Ogg page: header fields plus the segments of the lacing table. -/
structure oggPage where
  continued : Bool
  bos : Bool
  eos : Bool
  granulepos : Int
  serialno : Nat
  pageno : Nat
  segments : List (List Nat)
deriving DecidableEq, Repr

/-- A reconstructed packet as handed out by the packet reassembler, with the
flags libogg attaches to it. -/
structure modelPacket where
  bytes : List Nat
  eos : Bool
  granulepos : Int
deriving DecidableEq, Repr

/-- Modelled from the spec (§4.2): group a page's segments into completed
packets, starting from the carried-over partial packet; a full 255-byte
segment continues the packet, a shorter one completes it.  Returns the
completed packets and the partial packet left at the end of the page. -/
def splitSegs : Option (List Nat) → List (List Nat) → List (List Nat) × Option (List Nat)
  | carry, [] => ([], carry)
  | carry, s :: rest =>
    let cur := carry.getD [] ++ s
    if s.length = 255 then splitSegs (some cur) rest
    else
      let r := splitSegs none rest
      (cur :: r.1, r.2)

/-- Attach flags to the completed packets of one page: the last packet that
completes on the page receives the page's granule position, and the end-of
stream flag when the page is the stream's last and ends that packet; every
other packet carries granule position -1. -/
def attachFlags (pg : oggPage) (ending : Bool) : List (List Nat) → List modelPacket
  | [] => []
  | [b] => [⟨b, pg.eos && ending, if ending then pg.granulepos else -1⟩]
  | b :: rest => ⟨b, false, -1⟩ :: attachFlags pg ending rest


/-- Fuel-driven canonical lacing: the fuel only bounds the recursion depth
(one unit per 255-byte segment, so the byte count is always enough). -/
def laceN : Nat → List Nat → List (List Nat)
  | 0, b => [b]
  | n + 1, b =>
    if b.length < 255 then [b]
    else b.take 255 :: laceN n (b.drop 255)

/-- Canonical lacing of one packet's bytes: full 255-byte segments followed
by one terminating segment shorter than 255 (empty when the length is an
exact multiple of 255). -/
def lace (b : List Nat) : List (List Nat) := laceN b.length b

/-- Modelled from the spec (§4.5): the page emitted by `ogg_stream_flush` for
the packets submitted since the previous flush.  The first flushed page of
the stream carries `bos`; the page's granule position is the last
submitted packet's; `eos` is set when a submitted packet ended the
stream. -/
def mkFlushPage (serial pageno : Nat) (accum : List modelPacket) : oggPage :=
  { continued := false
    bos := pageno = 0
    eos := accum.any (fun p => p.eos)
    granulepos := ((accum.getLast?).map (fun p => p.granulepos)).getD (-1)
    serialno := serial
    pageno := pageno
    segments := accum.flatMap (fun p => lace p.bytes) }

/-! ## The orchestrator

Translation of `same_file` and `run` (opustags.cc lines 17 to 26 and 61 to
201).  File-system effects are abstracted: `canon` stands for `realpath`
(returning `none` on failure), `fileExists` for `access(F_OK)`; `fopen` is
assumed to succeed, and the input is the list of pages the reader yields
before end of file.  I/O read and write errors are outside the model. -/

/-- Translation of `same_file` (opustags.cc lines 17 to 26): "-" never
matches; otherwise both paths are canonicalized and compared, and failure
of either canonicalization means "not the same file". -/
def same_file (canon : String → Option String) (path_in path_out : String) : Bool :=
  if path_in = "-" ∨ path_out = "-" then false
  else
    match canon path_in, canon path_out with
    | some a, some b => a = b
    | _, _ => false

/-- State of the while loop of `run` (opustags.cc lines 100 to 182). -/
structure loopSt where
  error : Option String
  stop : Bool
  count : Int
  serial : Option Nat
  buf : Option (List Nat)
  wpageno : Nat
  out : List oggPage
  printed : Option (List (List Nat))
  pagesRead : Nat
deriving Repr

/-- State of the packet loop of `run` (opustags.cc lines 141 to 166). -/
structure innerSt where
  count : Int
  accum : List modelPacket
  error : Option String
  printed : Option (List (List Nat))
  brk : Bool
deriving Repr

/-- Translation of the packet loop of `run` (opustags.cc lines 141 to 166):
each packet bumps the count; packet 1 is validated as the identification
header, packet 2 goes through `process_tags` (whose rendered replacement is
submitted with granule position 0 and no end-of-stream flag, and which in
read mode prints and breaks), and every other packet is passed through to
the writer stream in write mode. -/
def processPackets (opt : options) (writeMode : Bool) (stdin : List (List Nat)) :
    List modelPacket → innerSt → innerSt
  | [], i => i
  | p :: rest, i =>
    if i.error.isSome ∨ i.brk then i
    else
      let c := i.count + 1
      if c = 1 then
        if validate_identification_header p.bytes then
          processPackets opt writeMode stdin rest
            { i with count := c, accum := if writeMode then i.accum ++ [p] else i.accum }
        else { i with count := c, error := some "invalid identification header" }
      else if c = 2 then
        match process_tags p.bytes opt writeMode stdin with
        | none => { i with count := c, error := some "invalid comment header" }
        | some (.packetIn b) =>
          processPackets opt writeMode stdin rest
            { i with count := c, accum := i.accum ++ [⟨b, false, 0⟩] }
        | some (.printed cs) => { i with count := c, printed := some cs, brk := true }
      else
        processPackets opt writeMode stdin rest
          { i with count := c, accum := if writeMode then i.accum ++ [p] else i.accum }

/-- Translation of one iteration of the page loop of `run` (opustags.cc lines
102 to 182): short-circuit raw page copy once the two header packets are
done in write mode; otherwise initialize the streams on the first page,
feed the page to the reassembler (modelled from the spec §4.2:
`ogg_stream_pagein` fails when the page's serial number is not the
stream's or the continuation flag contradicts the partial-packet buffer,
and `ogg_stream_packetout` drains the completed packets), run the packet
loop, and in write mode flush exactly one page, while read mode stops once
both headers were seen. -/
def stepPage (opt : options) (writeMode : Bool) (stdin : List (List Nat))
    (st : loopSt) (pg : oggPage) : loopSt :=
  if 2 ≤ st.count ∧ writeMode then
    { st with out := st.out ++ [pg], pagesRead := st.pagesRead + 1 }
  else
    let serial := if st.count = -1 then pg.serialno else st.serial.getD 0
    let count0 : Int := if st.count = -1 then 0 else st.count
    if pg.serialno ≠ serial ∨ pg.continued ≠ st.buf.isSome then
      { st with error := some "ogg_stream_pagein: invalid page", stop := true,
                serial := some serial, count := count0,
                pagesRead := st.pagesRead + 1 }
    else
      let r := splitSegs st.buf pg.segments
      let pkts := attachFlags pg r.2.isNone r.1
      let inner := processPackets opt writeMode stdin pkts
        ⟨count0, [], none, st.printed, false⟩
      if inner.error.isSome then
        { st with error := inner.error, stop := true, serial := some serial,
                  count := inner.count, buf := r.2, printed := inner.printed,
                  pagesRead := st.pagesRead + 1 }
      else if writeMode then
        { st with serial := some serial, count := inner.count, buf := r.2,
                  printed := inner.printed,
                  out := st.out ++ [mkFlushPage serial st.wpageno inner.accum],
                  wpageno := st.wpageno + 1, pagesRead := st.pagesRead + 1 }
      else if 2 ≤ inner.count then
        { st with serial := some serial, count := inner.count, buf := r.2,
                  printed := inner.printed, stop := true,
                  pagesRead := st.pagesRead + 1 }
      else
        { st with serial := some serial, count := inner.count, buf := r.2,
                  printed := inner.printed, pagesRead := st.pagesRead + 1 }

/-- The page loop of `run`: process pages in order until the input is
exhausted or the loop stopped (error, or read-only completion). -/
def runPages (opt : options) (writeMode : Bool) (stdin : List (List Nat)) :
    List oggPage → loopSt → loopSt
  | [], st => st
  | pg :: rest, st =>
    if st.stop then st
    else runPages opt writeMode stdin rest (stepPage opt writeMode stdin st pg)

/-- The initial loop state: no error, `packet_count = -1`, streams not yet
initialized, nothing written. -/
def initSt : loopSt := ⟨none, false, -1, none, none, 0, [], none, 0⟩

/-- Observable outcome of `run`: exit code, final diagnostic, packet count,
pages written, comments printed, pages consumed, and whether an output
file was opened and removed. -/
structure runResult where
  exitCode : Nat
  error : Option String
  packetCount : Int
  output : List oggPage
  printed : Option (List (List Nat))
  pagesRead : Nat
  outputOpened : Bool
  outputRemoved : Bool
deriving Repr

/-- The epilogue of `run` (opustags.cc lines 186 to 200): patch in the
`opustags: invalid file` diagnostic when fewer than two packets were seen,
and on failure remove the output file when one was opened (stdout
excepted). -/
def finishRun (toFile : Bool) (st : loopSt) : runResult :=
  let finalError := if st.error.isNone ∧ st.count < 2
                    then some "opustags: invalid file" else st.error
  match finalError with
  | some e => ⟨1, some e, st.count, st.out, st.printed, st.pagesRead, toFile, toFile⟩
  | none => ⟨0, none, st.count, st.out, st.printed, st.pagesRead, toFile, false⟩

/-- The output path after the in-place adjustment of opustags.cc lines 79
to 80: with `--in-place` the output is the input path plus the suffix. -/
def pathOutOf (opt : options) : String :=
  match opt.inplace with
  | some sfx => opt.path_in ++ sfx
  | none => opt.path_out

/-- Whether a writer is open at all (opustags.cc lines 78 to 99). -/
def writeModeOf (opt : options) : Bool := !(pathOutOf opt).isEmpty

/-- Whether the writer is a real file rather than stdout. -/
def toFileOf (opt : options) : Bool := writeModeOf opt && pathOutOf opt != "-"

/-- Translation of `run` (opustags.cc lines 61 to 201): the same-file guard,
the in-place output path adjustment, the overwrite guard, the page loop,
the minimum-packet check, and on failure the removal of the output file
when one was opened (stdout excepted). -/
def run (canon : String → Option String) (fileExists : String → Bool)
    (opt : options) (pages : List oggPage) (stdin : List (List Nat)) : runResult :=
  if !opt.path_out.isEmpty && same_file canon opt.path_in opt.path_out then
    ⟨1, some "error: the input and output files are the same", -1, [], none, 0, false, false⟩
  else if toFileOf opt && !opt.overwrite && opt.inplace.isNone
      && fileExists (pathOutOf opt) then
    ⟨1, some "output already exists", -1, [], none, 0, false, false⟩
  else
    finishRun (toFileOf opt) (runPages opt (writeModeOf opt) stdin pages initSt)

/-! ## Byte-level page encoding

Modelled from the spec (§4.1): the page codec writes the fixed header
(capture pattern, version 0, header-type flags, granule position, serial
number, page sequence number, checksum, lacing table) followed by the
payload, with the checksum computed by the container's CRC-32 variant
(polynomial 0x04c11db7, not reflected) over the page with the checksum
field zeroed. -/

/-- One shift step of the container's CRC-32 (polynomial 0x04c11db7). -/
def crcShift (c : Nat) : Nat :=
  if c &&& 2147483648 ≠ 0 then ((c <<< 1) ^^^ 79764919) % 4294967296
  else (c <<< 1) % 4294967296

/-- Eight CRC shift steps. -/
def crc8 (c : Nat) : Nat :=
  crcShift (crcShift (crcShift (crcShift (crcShift (crcShift (crcShift (crcShift c)))))))

/-- Fold one byte into the CRC state (most-significant-bit first, not
reflected). -/
def crcByte (c b : Nat) : Nat :=
  crc8 ((c ^^^ (b <<< 24)) % 4294967296)

/-- The container's CRC-32 of a byte list, starting from 0, no final xor. -/
def crc32 (l : List Nat) : Nat := l.foldl crcByte 0

/-- Little-endian 64-bit two's-complement encoding of the granule position. -/
def le64 (g : Int) : List Nat :=
  let n := (g % 18446744073709551616).toNat
  [n % 256, n / 256 % 256, n / 65536 % 256, n / 16777216 % 256,
   n / 4294967296 % 256, n / 1099511627776 % 256,
   n / 281474976710656 % 256, n / 72057594037927936 % 256]

/-- The header-type byte: continuation, begin-of-stream, end-of-stream. -/
def headerType (pg : oggPage) : Nat :=
  (if pg.continued then 1 else 0) + (if pg.bos then 2 else 0) + (if pg.eos then 4 else 0)

/-- A page's bytes with the given value in the checksum field. -/
def pageHeader (pg : oggPage) (crc : Nat) : List Nat :=
  [79, 103, 103, 83, 0, headerType pg] ++ le64 pg.granulepos ++ le32 pg.serialno
    ++ le32 pg.pageno ++ le32 crc ++ [pg.segments.length]
    ++ pg.segments.map (fun s => s.length) ++ pg.segments.flatten

/-- Modelled from the spec (§4.1, on write), `ot::write_page` not being part
of the provided source: the page's bytes with the recomputed checksum. -/
def write_page (pg : oggPage) : List Nat := pageHeader pg (crc32 (pageHeader pg 0))

/-- The byte stream of a sequence of pages. -/
def streamBytes (pages : List oggPage) : List Nat := pages.flatMap write_page

/-! ## Stream analysis

Pure reconstruction of the packet sequence of a page list, used to state
validity of an input stream and the position at which the two header
packets are complete. -/

/-- The packets completed over a page list, starting from a carried partial
packet. -/
def packetsFrom : Option (List Nat) → List oggPage → List (List Nat)
  | _, [] => []
  | carry, pg :: rest =>
    let r := splitSegs carry pg.segments
    r.1 ++ packetsFrom r.2 rest

/-- The partial packet left after a page list, starting from a carried
partial packet. -/
def scanFrom : Option (List Nat) → List oggPage → Option (List Nat)
  | carry, [] => carry
  | carry, pg :: rest => scanFrom (splitSegs carry pg.segments).2 rest

/-- All packets completed over a page list, in order. -/
def streamPackets (pages : List oggPage) : List (List Nat) :=
  packetsFrom none pages

/-- Number of packets completed strictly within the first `i` pages. -/
def completedBy (pages : List oggPage) (i : Nat) : Nat :=
  (packetsFrom none (pages.take i)).length

/-- The partial packet carried into page `i`. -/
def carryAt (pages : List oggPage) (i : Nat) : Option (List Nat) :=
  scanFrom none (pages.take i)

/-- The serial number of the first page, which identifies the only logical
stream the tool processes. -/
def firstSerial (pages : List oggPage) : Nat :=
  match pages with
  | [] => 0
  | p0 :: _ => p0.serialno

/-- Well-formed page data: every segment fits a lacing value and holds actual
bytes. -/
def pageWF (pg : oggPage) : Bool :=
  pg.segments.all (fun s => s.length ≤ 255 && s.all (fun b => b < 256))

/-- A valid two-header-plus-N-packet Ogg/Opus stream (§3, §4): nonempty, one
serial number, pages numbered from 0, begin-of-stream exactly on the first
page and end-of-stream exactly on the last, continuation flags consistent
with the packet reassembly, no packet left incomplete at the end, and the
first two packets being a valid identification header and a parseable
comment header. -/
def validStream (pages : List oggPage) : Bool :=
  match pages with
  | [] => false
  | p0 :: _ =>
    pages.all (fun pg => pageWF pg && pg.serialno == p0.serialno)
    && (List.range pages.length).all (fun i =>
         match pages[i]? with
         | some pg =>
           pg.pageno == i
           && pg.bos == decide (i = 0)
           && pg.eos == decide (i = pages.length - 1)
           && pg.continued == (carryAt pages i).isSome
         | none => true)
    && (scanFrom none pages).isNone
    && (match streamPackets pages with
        | p1 :: p2 :: _ => validate_identification_header p1 && (parse_tags p2).isSome
        | _ => false)

/-- A page made only of whole packets: not a continuation, at least one
segment, and a final segment short enough to terminate its packet. -/
def wholesome (pg : oggPage) : Bool :=
  match pg.segments.getLast? with
  | some s => !pg.continued && s.length < 255
  | none => false

/-- No edit operation requested. -/
def noEdit (opt : options) : Bool :=
  !opt.delete_all && opt.to_delete.isEmpty && !opt.set_all && opt.to_add.isEmpty

/-- The spec's wording of the edit pipeline (§4.4): clear the list or filter
out every entry matching any name to delete, then replace wholesale when
"set all" is requested, then append the new comments in order. -/
def editTagsSpec (opt : options) (stdin : List (List Nat)) (t : opus_tags) : opus_tags :=
  let c1 := if opt.delete_all then []
    else t.comments.filter (fun e => ! opt.to_delete.any (fun name => keyMatches name e))
  let c2 := if opt.set_all then stdin else c1
  ⟨t.vendor, c2 ++ opt.to_add⟩

/-- Size bounds under which a comment block survives rendering: every length
stored in a 32-bit field must fit it. -/
def sizesOk (t : opus_tags) : Prop :=
  t.vendor.length < 4294967296 ∧ t.comments.length < 4294967296
    ∧ ∀ c ∈ t.comments, c.length < 4294967296

/-! ## Concrete example data

A small valid stream (identification header, a one-comment OpusTags header
with vendor "VV", one audio packet), a stream whose comment header spans a
page boundary, and the option sets used to exercise the claims. -/

def exTags : opus_tags := ⟨[86, 86], [[65, 61, 66]]⟩

def exPacket : List Nat := render_tags exTags

def exIdPage : oggPage := ⟨false, true, false, 0, 7, 0, [opusHeadMagic]⟩

def exTagPage : oggPage := ⟨false, false, false, 0, 7, 1, [exPacket]⟩

def exAudioPage : oggPage := ⟨false, false, true, 960, 7, 2, [[1, 2, 3]]⟩

def exPages : List oggPage := [exIdPage, exTagPage, exAudioPage]

def exWriteOpt : options := ⟨false, [], false, [], "in", "out", none, true⟩

def exReadOpt : options := ⟨false, [], false, [], "in", "", none, true⟩

def exEditOpt : options := ⟨true, [], false, [[88, 61, 89]], "in", "out", none, true⟩

def exDeleteAllReadOpt : options := ⟨true, [], false, [], "in", "", none, true⟩

def exDeleteTags : opus_tags :=
  ⟨[86, 86], [[65, 82, 84, 73, 83, 84, 61, 65], [65, 82, 84, 73, 83, 84, 61, 66],
    [84, 73, 84, 76, 69, 61, 84]]⟩

def exDeleteName : List Nat := [97, 114, 116, 105, 115, 116]

def noCanon : String → Option String := fun _ => none

def noFile : String → Bool := fun _ => false

def exCanon : String → Option String :=
  fun p => if p = "a" || p = "b" then some "x" else none

def exSameOpt : options := ⟨false, [], false, [], "a", "b", none, true⟩

/-- A 255-byte OpusTags packet (vendor of 239 bytes, no comments), long
enough to need a full lacing segment. -/
def cxBigTag : List Nat := opusTagsMagic ++ le32 239 ++ List.replicate 239 86 ++ le32 0

def cxPage0 : oggPage := ⟨false, true, false, 0, 7, 0, [opusHeadMagic]⟩

def cxPage1 : oggPage := ⟨false, false, false, -1, 7, 1, [cxBigTag]⟩

def cxPage2 : oggPage := ⟨true, false, true, 0, 7, 2, [([] : List Nat)]⟩

/-- A valid stream whose comment header spans the page 1 to page 2
boundary. -/
def cxPages : List oggPage := [cxPage0, cxPage1, cxPage2]

/-- A page carrying a foreign serial number (9 instead of 7). -/
def exRoguePage : oggPage := ⟨false, false, true, 0, 9, 1, [[5]]⟩

/-- The writer packets produced from the reader packets of one header-phase
page: the packet whose global number is 2 (the comment header) is replaced
by the freshly rendered packet, which carries the same bytes in a no-edit
run but granule position 0 and no end-of-stream flag. -/
def replaceAt2 (c0 : Int) : List modelPacket → List modelPacket
  | [] => []
  | q :: rest =>
    (if c0 + 1 = 2 then ⟨q.bytes, false, 0⟩ else q) :: replaceAt2 (c0 + 1) rest

/-- The page the run under scrutiny emits in place of `cxPage1`: an empty
flush. -/
def cxOutB : oggPage := ⟨false, false, false, -1, 7, 1, []⟩

/-- The page the run under scrutiny emits in place of `cxPage2`: the whole
re-rendered comment packet, with the continuation and end-of-stream flags
lost. -/
def cxOutC : oggPage := ⟨false, false, false, 0, 7, 2, [cxBigTag, []]⟩

/-! ## Lemmas on the comment codec -/

theorem readLE32_le32 (n : Nat) (r : List Nat) :
    readLE32 (le32 n ++ r) = some (n % 4294967296, r) := by
  have h : n % 256 + 256 * (n / 256 % 256 + 256 * (n / 65536 % 256
      + 256 * (n / 16777216 % 256))) = n % 4294967296 := by omega
  simp only [le32, List.cons_append, List.nil_append, readLE32, h]

theorem le32_eq_of_bytes (a b c d : Nat) (ha : a < 256) (hb : b < 256)
    (hc : c < 256) (hd : d < 256) :
    le32 (a + 256 * (b + 256 * (c + 256 * d))) = [a, b, c, d] := by
  simp only [le32, List.cons.injEq, and_true]
  refine ⟨by omega, by omega, by omega, by omega⟩

theorem readBytes_exact (l r : List Nat) : readBytes l.length (l ++ r) = some (l, r) := by
  simp [readBytes, List.take_left, List.drop_left]

theorem readBytes_inv {n : Nat} {l x r : List Nat} (h : readBytes n l = some (x, r)) :
    l = x ++ r ∧ x.length = n := by
  simp only [readBytes] at h
  split at h
  · obtain ⟨rfl, rfl⟩ := Prod.mk.injEq .. ▸ Option.some.injEq .. ▸ h
    constructor
    · exact (List.take_append_drop n l).symm
    · simpa [List.length_take] using by omega
  · exact absurd h (by simp)

theorem readLE32_inv {l : List Nat} {v : Nat} {r : List Nat}
    (hb : ∀ b ∈ l, b < 256) (h : readLE32 l = some (v, r)) :
    l = le32 v ++ r ∧ v < 4294967296 := by
  match l with
  | [] => exact absurd h (by simp [readLE32])
  | [a] => exact absurd h (by simp [readLE32])
  | [a, b] => exact absurd h (by simp [readLE32])
  | [a, b, c] => exact absurd h (by simp [readLE32])
  | a :: b :: c :: d :: rest =>
    simp only [readLE32, Option.some.injEq, Prod.mk.injEq] at h
    obtain ⟨rfl, rfl⟩ := h
    have ha : a < 256 := hb a (by simp)
    have hbb : b < 256 := hb b (by simp)
    have hc : c < 256 := hb c (by simp)
    have hd : d < 256 := hb d (by simp)
    refine ⟨?_, by omega⟩
    rw [le32_eq_of_bytes a b c d ha hbb hc hd]
    simp

theorem readEntries_flatMap (cs : List (List Nat)) (r : List Nat)
    (hsz : ∀ c ∈ cs, c.length < 4294967296) :
    readEntries cs.length (cs.flatMap (fun c => le32 c.length ++ c) ++ r)
      = some (cs, r) := by
  induction cs with
  | nil => simp [readEntries]
  | cons c cs ih =>
    have hc : c.length < 4294967296 := hsz c (by simp)
    have hcs : ∀ x ∈ cs, x.length < 4294967296 := fun x hx => hsz x (by simp [hx])
    simp only [List.length_cons, List.flatMap_cons, readEntries, List.append_assoc,
      readLE32_le32, Nat.mod_eq_of_lt hc, Option.bind_eq_bind, Option.some_bind,
      readBytes_exact, ih hcs]

theorem readEntries_inv :
    ∀ (n : Nat) (l : List Nat) (cs : List (List Nat)) (r : List Nat),
      readEntries n l = some (cs, r) → (∀ b ∈ l, b < 256) →
      l = cs.flatMap (fun c => le32 c.length ++ c) ++ r ∧ cs.length = n := by
  intro n
  induction n with
  | zero =>
    intro l cs r h _
    simp only [readEntries, Option.some.injEq, Prod.mk.injEq] at h
    obtain ⟨rfl, rfl⟩ := h
    simp
  | succ n ih =>
    intro l cs r h hb
    simp only [readEntries, Option.bind_eq_bind] at h
    match h1 : readLE32 l with
    | none => rw [h1] at h; simp at h
    | some (len, r1) =>
      rw [h1] at h
      simp only [Option.some_bind] at h
      match h2 : readBytes len r1 with
      | none => rw [h2] at h; simp at h
      | some (e, r2) =>
        rw [h2] at h
        simp only [Option.some_bind] at h
        match h3 : readEntries n r2 with
        | none => rw [h3] at h; simp at h
        | some (es, r3) =>
          rw [h3] at h
          simp only [Option.some_bind, Option.some.injEq, Prod.mk.injEq] at h
          obtain ⟨rfl, rfl⟩ := h
          obtain ⟨hl1, hv⟩ := readLE32_inv hb h1
          have hb1 : ∀ b ∈ r1, b < 256 := by
            intro b hbm; exact hb b (by rw [hl1]; simp [hbm])
          obtain ⟨hl2, he⟩ := readBytes_inv h2
          have hb2 : ∀ b ∈ r2, b < 256 := by
            intro b hbm; exact hb1 b (by rw [hl2]; simp [hbm])
          obtain ⟨hl3, hn⟩ := ih r2 es r3 h3 hb2
          subst hl1 hl2 hl3 he
          constructor
          · simp [List.flatMap_cons, List.append_assoc]
          · simp [hn]

theorem parse_render (t : opus_tags) (hsz : sizesOk t) :
    parse_tags (render_tags t) = some t := by
  obtain ⟨hv, hc, hcs⟩ := hsz
  have htake : ∀ x : List Nat, (opusTagsMagic ++ x).take 8 = opusTagsMagic :=
    fun x => rfl
  have hdrop : ∀ x : List Nat, (opusTagsMagic ++ x).drop 8 = x := fun x => rfl
  have hnil : t.comments.flatMap (fun c => le32 c.length ++ c)
      = t.comments.flatMap (fun c => le32 c.length ++ c) ++ [] := by simp
  simp only [render_tags, parse_tags, List.append_assoc, htake, hdrop, if_true,
    readLE32_le32, Nat.mod_eq_of_lt hv, readBytes_exact, Nat.mod_eq_of_lt hc]
  rw [hnil, readEntries_flatMap t.comments [] hcs]
  simp

theorem render_parse {p : List Nat} {t : opus_tags}
    (hb : ∀ b ∈ p, b < 256) (h : parse_tags p = some t) :
    render_tags t = p := by
  simp only [parse_tags] at h
  split at h
  case isFalse => exact absurd h (by simp)
  case isTrue hmag =>
  have hbd : ∀ b ∈ p.drop 8, b < 256 := fun b hbm => hb b (List.drop_subset 8 p hbm)
  match h1 : readLE32 (p.drop 8) with
  | none => rw [h1] at h; simp at h
  | some (vlen, r1) =>
    rw [h1] at h
    dsimp only at h
    obtain ⟨hd1, _⟩ := readLE32_inv hbd h1
    have hb1 : ∀ b ∈ r1, b < 256 := fun b hbm => hbd b (by rw [hd1]; simp [hbm])
    match h2 : readBytes vlen r1 with
    | none => rw [h2] at h; simp at h
    | some (vendor, r2) =>
      rw [h2] at h
      dsimp only at h
      obtain ⟨hd2, hvl⟩ := readBytes_inv h2
      have hb2 : ∀ b ∈ r2, b < 256 := fun b hbm => hb1 b (by rw [hd2]; simp [hbm])
      match h3 : readLE32 r2 with
      | none => rw [h3] at h; simp at h
      | some (count, r3) =>
        rw [h3] at h
        dsimp only at h
        obtain ⟨hd3, _⟩ := readLE32_inv hb2 h3
        have hb3 : ∀ b ∈ r3, b < 256 := fun b hbm => hb2 b (by rw [hd3]; simp [hbm])
        match h4 : readEntries count r3 with
        | none => rw [h4] at h; simp at h
        | some (comments, r4) =>
          rw [h4] at h
          dsimp only at h
          obtain ⟨hd4, hcnt⟩ := readEntries_inv count r3 comments r4 h4 hb3
          split at h
          case isFalse => exact absurd h (by simp)
          case isTrue h5 =>
          simp only [Option.some.injEq] at h
          subst h h5 hvl hcnt
          have : p = p.take 8 ++ p.drop 8 := (List.take_append_drop 8 p).symm
          rw [render_tags, this, hmag, hd1, hd2, hd3, hd4]
          simp

/-! ## Lemmas on the edit pipeline -/

theorem foldl_delete_eq_filter (names : List (List Nat)) (t : opus_tags) :
    names.foldl (fun acc n => delete_tags acc n) t
      = ⟨t.vendor, t.comments.filter
          (fun e => ! names.any (fun n => keyMatches n e))⟩ := by
  induction names generalizing t with
  | nil =>
    obtain ⟨v, cs⟩ := t
    simp [List.any_nil, List.filter_true]
  | cons n ns ih =>
    simp only [List.foldl_cons]
    rw [ih (delete_tags t n)]
    simp only [delete_tags, List.filter_filter]
    congr 1
    apply List.filter_congr
    intro x _
    simp only [List.any_cons, Bool.not_or]
    exact Bool.and_comm _ _

theorem editTags_vendor (opt : options) (stdin : List (List Nat)) (t : opus_tags) :
    (editTags opt stdin t).vendor = t.vendor := by
  obtain ⟨v, cs⟩ := t
  simp only [editTags, foldl_delete_eq_filter]
  cases opt.delete_all <;> cases opt.set_all <;> simp

theorem editTags_noEdit (opt : options) (stdin : List (List Nat)) (t : opus_tags)
    (h : noEdit opt = true) : editTags opt stdin t = t := by
  simp only [noEdit, Bool.and_eq_true, Bool.not_eq_true', List.isEmpty_iff] at h
  obtain ⟨⟨⟨hda, htd⟩, hsa⟩, hta⟩ := h
  obtain ⟨v, cs⟩ := t
  simp [editTags, hda, hsa, htd, hta]

/-- C2: for every parsed comment list and option set, the edits are applied
in exactly the fixed order the spec gives: clear or per-name delete, then
wholesale replacement, then append in supplied order.  The translated
pipeline coincides with the spec's description. -/
theorem C2_edit_order (opt : options) (stdin : List (List Nat)) (t : opus_tags) :
    editTags opt stdin t = editTagsSpec opt stdin t := by
  obtain ⟨v, cs⟩ := t
  simp only [editTags, editTagsSpec, foldl_delete_eq_filter]
  cases hda : opt.delete_all <;> cases hsa : opt.set_all <;> simp

/-- C4: deleting an absent key leaves the comment list unchanged; deleting a
key present in K entries removes exactly those K entries, matching
case-insensitively, preserving the relative order of the rest and the
vendor string. -/
theorem C4_delete_exact (t : opus_tags) (name : List Nat) (K : Nat)
    (hK : t.comments.countP (fun e => keyMatches name e) = K) :
    (delete_tags t name).vendor = t.vendor
    ∧ (delete_tags t name).comments.Sublist t.comments
    ∧ (∀ e ∈ (delete_tags t name).comments, keyMatches name e = false)
    ∧ (delete_tags t name).comments.length + K = t.comments.length
    ∧ (K = 0 → delete_tags t name = t) := by
  refine ⟨rfl, List.filter_sublist t.comments, ?_, ?_, ?_⟩
  · intro e he
    have := (List.mem_filter.mp he).2
    simpa using this
  · have h2 : ∀ l : List (List Nat),
        l.countP (fun e => ! keyMatches name e)
          + l.countP (fun e => keyMatches name e) = l.length := by
      intro l
      induction l with
      | nil => simp
      | cons a l ih => cases hkm : keyMatches name a <;> simp [List.countP_cons, hkm] <;> omega
    have hfl : (delete_tags t name).comments.length
        = t.comments.countP (fun e => ! keyMatches name e) := by
      simp [delete_tags, List.countP_eq_length_filter]
    have := h2 t.comments
    omega
  · intro hK0
    subst hK0
    obtain ⟨v, cs⟩ := t
    simp only [delete_tags, opus_tags.mk.injEq, true_and]
    apply List.filter_eq_self.mpr
    intro e he
    simp only [List.countP_eq_zero] at hK
    simpa using hK e he

/-! ## Lemmas on the run epilogue -/

theorem finishRun_exit_zero_iff (toFile : Bool) (st : loopSt) :
    (finishRun toFile st).exitCode = 0 ↔ (st.error = none ∧ 2 ≤ st.count) := by
  simp only [finishRun]
  by_cases h : st.error.isNone ∧ st.count < 2
  · rw [if_pos h]
    constructor
    · intro h0; exact absurd h0 (by simp)
    · intro hrhs; exact absurd h.2 (by omega)
  · rw [if_neg h]
    cases hE : st.error with
    | none =>
      have hc : 2 ≤ st.count := by
        by_contra hlt
        exact h ⟨by simp [hE], by omega⟩
      simp [hc]
    | some e =>
      simp

theorem finishRun_diagnostic (toFile : Bool) (st : loopSt) :
    (finishRun toFile st).exitCode ≠ 0 → (finishRun toFile st).error.isSome := by
  simp only [finishRun]
  split
  · intro _; rfl
  · intro h; exact absurd rfl h

theorem finishRun_removed (toFile : Bool) (st : loopSt) :
    (finishRun toFile st).exitCode ≠ 0 → (finishRun toFile st).outputRemoved = toFile := by
  simp only [finishRun]
  split
  · intro _; rfl
  · intro h; exact absurd rfl h

theorem finishRun_opened (toFile : Bool) (st : loopSt) :
    (finishRun toFile st).outputOpened = toFile := by
  simp only [finishRun]; split <;> rfl

theorem finishRun_output (toFile : Bool) (st : loopSt) :
    (finishRun toFile st).output = st.out := by
  simp only [finishRun]; split <;> rfl

theorem finishRun_count (toFile : Bool) (st : loopSt) :
    (finishRun toFile st).packetCount = st.count := by
  simp only [finishRun]; split <;> rfl

theorem finishRun_error_none (toFile : Bool) (st : loopSt) :
    (finishRun toFile st).exitCode = 0 → st.error = none ∧ 2 ≤ st.count :=
  (finishRun_exit_zero_iff toFile st).mp

theorem finishRun_error_none_iff (toFile : Bool) (st : loopSt) :
    (finishRun toFile st).error = none ↔ (finishRun toFile st).exitCode = 0 := by
  simp only [finishRun]; split <;> simp

/-! ## Claims on exit status and file handling -/

/-- C3: the process exits with success exactly when at least two packets
(identification and comment header) were seen and no error occurred, and
every failing exit carries a diagnostic. -/
theorem C3_exit_status (canon : String → Option String) (fileExists : String → Bool)
    (opt : options) (pages : List oggPage) (stdin : List (List Nat)) :
    ((run canon fileExists opt pages stdin).exitCode = 0
      ↔ ((run canon fileExists opt pages stdin).error = none
          ∧ 2 ≤ (run canon fileExists opt pages stdin).packetCount))
    ∧ ((run canon fileExists opt pages stdin).exitCode ≠ 0
        → (run canon fileExists opt pages stdin).error.isSome) := by
  unfold run
  split
  · refine ⟨?_, ?_⟩
    · constructor
      · intro h0; exact absurd h0 (by simp)
      · intro hrhs; exact absurd hrhs.1 (by simp)
    · intro _; rfl
  · split
    · refine ⟨?_, ?_⟩
      · constructor
        · intro h0; exact absurd h0 (by simp)
        · intro hrhs; exact absurd hrhs.1 (by simp)
      · intro _; rfl
    · refine ⟨?_, finishRun_diagnostic _ _⟩
      rw [finishRun_count]
      constructor
      · intro h
        exact ⟨(finishRun_error_none_iff _ _).mpr h, (finishRun_error_none _ _ h).2⟩
      · intro h
        exact (finishRun_error_none_iff _ _).mp h.1

/-- C4 witness: the spec's own example, deleting key "artist" from
["ARTIST=A", "ARTIST=B", "TITLE=T"] removes exactly the two ARTIST
entries and keeps TITLE=T, vendor untouched. -/
theorem C4_witness :
    ((delete_tags exDeleteTags exDeleteName).vendor = exDeleteTags.vendor
      ∧ (delete_tags exDeleteTags exDeleteName).comments.Sublist exDeleteTags.comments
      ∧ (∀ e ∈ (delete_tags exDeleteTags exDeleteName).comments,
          keyMatches exDeleteName e = false)
      ∧ (delete_tags exDeleteTags exDeleteName).comments.length + 2
          = exDeleteTags.comments.length
      ∧ (2 = 0 → delete_tags exDeleteTags exDeleteName = exDeleteTags))
    ∧ (delete_tags exDeleteTags exDeleteName).comments = [[84, 73, 84, 76, 69, 61, 84]] :=
  ⟨C4_delete_exact exDeleteTags exDeleteName 2 (by decide), by decide⟩

/-- C5: for every parsed comment header and every combination of edit
operations, the vendor string of the rendered output packet equals the
parsed input packet's vendor string; the edits touch only the comment
list. -/
theorem C5_vendor_unmodified (p : List Nat) (opt : options) (stdin : List (List Nat))
    (t : opus_tags) (hp : parse_tags p = some t)
    (hsz : sizesOk (editTags opt stdin t)) :
    (editTags opt stdin t).vendor = t.vendor
    ∧ process_tags p opt true stdin
        = some (.packetIn (render_tags (editTags opt stdin t)))
    ∧ parse_tags (render_tags (editTags opt stdin t)) = some (editTags opt stdin t) := by
  refine ⟨editTags_vendor opt stdin t, ?_, parse_render _ hsz⟩
  simp [process_tags, hp]

/-- C5 witness: a delete-all plus one append still leaves the vendor "VV"
in the rendered packet. -/
theorem C5_witness :
    (editTags exEditOpt [] exTags).vendor = exTags.vendor
    ∧ process_tags exPacket exEditOpt true []
        = some (.packetIn (render_tags (editTags exEditOpt [] exTags)))
    ∧ parse_tags (render_tags (editTags exEditOpt [] exTags))
        = some (editTags exEditOpt [] exTags) :=
  C5_vendor_unmodified exPacket exEditOpt [] exTags (by decide)
    (by unfold sizesOk; decide)

/-- C6: every run that terminates with an error after opening an output
file removes that file before exiting. -/
theorem C6_output_removed (canon : String → Option String) (fileExists : String → Bool)
    (opt : options) (pages : List oggPage) (stdin : List (List Nat))
    (hfail : (run canon fileExists opt pages stdin).exitCode ≠ 0)
    (hopen : (run canon fileExists opt pages stdin).outputOpened = true) :
    (run canon fileExists opt pages stdin).outputRemoved = true := by
  revert hfail hopen
  unfold run
  split
  · intro _ h; exact absurd h (by simp)
  · split
    · intro _ h; exact absurd h (by simp)
    · intro hf ho
      rw [finishRun_opened] at ho
      rw [finishRun_removed _ _ hf]
      exact ho

/-- C6 witness: a write-mode run on an empty input fails (no packets) and
removes the opened output file. -/
theorem C6_witness : (run noCanon noFile exWriteOpt [] []).outputRemoved = true :=
  C6_output_removed noCanon noFile exWriteOpt [] [] (by decide) (by decide)

/-- C10: when both paths canonicalize to the same file and neither is "-",
a run with output requested fails before reading or writing a single page,
and "-" never counts as the same file. -/
theorem C10_same_file_guard (canon : String → Option String) (fileExists : String → Bool)
    (opt : options) (pages : List oggPage) (stdin : List (List Nat)) (c : String)
    (h1 : opt.path_in ≠ "-") (h2 : opt.path_out ≠ "-")
    (h3 : canon opt.path_in = some c) (h4 : canon opt.path_out = some c)
    (h5 : opt.path_out ≠ "") :
    ((run canon fileExists opt pages stdin).exitCode = 1
      ∧ (run canon fileExists opt pages stdin).pagesRead = 0
      ∧ (run canon fileExists opt pages stdin).output = []
      ∧ (run canon fileExists opt pages stdin).printed = none
      ∧ (run canon fileExists opt pages stdin).outputOpened = false)
    ∧ ∀ pin pout : String, (pin = "-" ∨ pout = "-") → same_file canon pin pout = false := by
  have hsf : same_file canon opt.path_in opt.path_out = true := by
    simp [same_file, h1, h2, h3, h4]
  have hne : (!opt.path_out.isEmpty) = true := by
    rw [Bool.not_eq_true', ← Bool.not_eq_true]
    intro habs
    exact h5 ((String.isEmpty_iff opt.path_out).mp habs)
  have hcond : (!opt.path_out.isEmpty
      && same_file canon opt.path_in opt.path_out) = true := by
    rw [hne, hsf]
    rfl
  refine ⟨?_, ?_⟩
  · unfold run
    rw [if_pos hcond]
    exact ⟨rfl, rfl, rfl, rfl, rfl⟩
  · intro pin pout hd
    unfold same_file
    rw [if_pos hd]

/-- C10 witness: paths "a" and "b" both canonicalizing to "x" make the run
fail up front with nothing read, and "-" is never the same file. -/
theorem C10_witness :
    ((run exCanon noFile exSameOpt [] []).exitCode = 1
      ∧ (run exCanon noFile exSameOpt [] []).pagesRead = 0
      ∧ (run exCanon noFile exSameOpt [] []).output = []
      ∧ (run exCanon noFile exSameOpt [] []).printed = none
      ∧ (run exCanon noFile exSameOpt [] []).outputOpened = false)
    ∧ ∀ pin pout : String, (pin = "-" ∨ pout = "-")
        → same_file exCanon pin pout = false :=
  C10_same_file_guard exCanon noFile exSameOpt [] [] "x" (by decide) (by decide)
    (by decide) (by decide) (by decide)

/-! ## Lemmas on the page loop -/

theorem runPages_stop (opt : options) (w : Bool) (s : List (List Nat))
    (l : List oggPage) (st : loopSt) (h : st.stop = true) :
    runPages opt w s l st = st := by
  cases l with
  | nil => rfl
  | cons pg rest => simp [runPages, h]

theorem runPages_append (opt : options) (w : Bool) (s : List (List Nat))
    (xs ys : List oggPage) (st : loopSt) :
    runPages opt w s (xs ++ ys) st = runPages opt w s ys (runPages opt w s xs st) := by
  induction xs generalizing st with
  | nil => rfl
  | cons pg rest ih =>
    by_cases h : st.stop = true
    · rw [runPages_stop _ _ _ _ _ h, runPages_stop _ _ _ _ _ h,
        runPages_stop _ _ _ _ _ h]
    · simp only [List.cons_append, runPages, h, if_false, Bool.not_eq_true] at *
      rw [if_neg (by simp [h]), if_neg (by simp [h])]
      exact ih _

theorem stepPage_read_out (opt : options) (s : List (List Nat))
    (st : loopSt) (pg : oggPage) : (stepPage opt false s st pg).out = st.out := by
  unfold stepPage
  repeat' split
  all_goals try rfl
  all_goals try simp_all
  all_goals repeat' split
  all_goals try rfl
  all_goals try simp_all

theorem runPages_read_out (opt : options) (s : List (List Nat))
    (l : List oggPage) (st : loopSt) :
    (runPages opt false s l st).out = st.out := by
  induction l generalizing st with
  | nil => rfl
  | cons pg rest ih =>
    by_cases h : st.stop = true
    · rw [runPages_stop _ _ _ _ _ h]
    · simp only [runPages]
      rw [if_neg (by simp [h]), ih, stepPage_read_out]

theorem stepPage_write_cases (opt : options) (s : List (List Nat))
    (st : loopSt) (pg : oggPage) (herr : st.error = none) :
    ((stepPage opt true s st pg).error.isSome
      ∧ (stepPage opt true s st pg).stop = true
      ∧ (stepPage opt true s st pg).out = st.out)
    ∨ ((stepPage opt true s st pg).error = none
      ∧ (stepPage opt true s st pg).stop = st.stop
      ∧ (stepPage opt true s st pg).out.length = st.out.length + 1) := by
  unfold stepPage
  repeat' split
  all_goals try (right; exact ⟨herr, rfl, by simp⟩)
  all_goals try (left; exact ⟨by simp_all, rfl, rfl⟩)
  all_goals try simp_all
  all_goals repeat' split
  all_goals try (right; exact ⟨herr, rfl, by simp⟩)
  all_goals try (left; exact ⟨by simp_all, rfl, rfl⟩)
  all_goals try simp_all

theorem runPages_write_out_length (opt : options) (s : List (List Nat))
    (l : List oggPage) (st : loopSt)
    (hstop : st.stop = false) (herr : st.error = none)
    (hfin : (runPages opt true s l st).error = none) :
    (runPages opt true s l st).out.length = st.out.length + l.length := by
  induction l generalizing st with
  | nil => simp [runPages]
  | cons pg rest ih =>
    simp only [runPages] at hfin ⊢
    rw [if_neg (by simp [hstop])] at hfin ⊢
    rcases stepPage_write_cases opt s st pg herr with ⟨he, hs, _⟩ | ⟨he, hss, ho⟩
    · rw [runPages_stop _ _ _ _ _ hs] at hfin
      rw [hfin] at he
      exact absurd he (by simp)
    · rw [ih _ (hstop ▸ hss) he hfin, ho]
      simp only [List.length_cons]
      omega

theorem writeModeOf_true (opt : options) (hip : opt.inplace = none)
    (hpo : opt.path_out ≠ "") : writeModeOf opt = true := by
  simp only [writeModeOf, pathOutOf, hip]
  rw [Bool.not_eq_true', ← Bool.not_eq_true]
  intro habs
  exact hpo ((String.isEmpty_iff _).mp habs)

theorem writeModeOf_false (opt : options) (hip : opt.inplace = none)
    (hpo : opt.path_out = "") : writeModeOf opt = false := by
  simp only [writeModeOf, pathOutOf, hip, hpo]
  rfl

/-- C7: a successful write-mode run flushes exactly one output page per
input page read, both through the header phase and through the raw-copy
phase, so the output pagination mirrors the input's. -/
theorem C7_page_per_page (canon : String → Option String) (fileExists : String → Bool)
    (opt : options) (pages : List oggPage) (stdin : List (List Nat))
    (hip : opt.inplace = none) (hpo : opt.path_out ≠ "")
    (hok : (run canon fileExists opt pages stdin).exitCode = 0) :
    (run canon fileExists opt pages stdin).output.length = pages.length := by
  have hw : writeModeOf opt = true := writeModeOf_true opt hip hpo
  revert hok
  unfold run
  split
  · intro h0; exact absurd h0 (by simp)
  · split
    · intro h0; exact absurd h0 (by simp)
    · intro h0
      rw [finishRun_output]
      have herr := (finishRun_error_none _ _ h0).1
      rw [hw] at herr ⊢
      have hlen := runPages_write_out_length opt stdin pages initSt rfl rfl herr
      simpa [initSt] using hlen

/-- C7 witness: the three-page example stream yields three output pages. -/
theorem C7_witness :
    (run noCanon noFile exWriteOpt exPages []).output.length = exPages.length :=
  C7_page_per_page noCanon noFile exWriteOpt exPages [] rfl (by decide) (by decide)

theorem editTags_spec_eq (opt : options) (stdin : List (List Nat)) (t : opus_tags) :
    editTags opt stdin t = editTagsSpec opt stdin t := by
  obtain ⟨v, cs⟩ := t
  simp only [editTags, editTagsSpec, foldl_delete_eq_filter]
  cases hda : opt.delete_all <;> cases hsa : opt.set_all <;> simp

/-- C9 (amended): in read-only mode the list printed to the comment sink
equals the comment list parsed from the comment header with the requested
edits applied (in the spec's clear-or-delete, replace, append order); when
no edit operations are requested it is exactly the ordered parsed comment
list; and a read-only run never produces output pages. -/
theorem C9_read_mode_print :
    (∀ (p : List Nat) (opt : options) (stdin : List (List Nat)) (t : opus_tags),
      parse_tags p = some t →
      process_tags p opt false stdin
        = some (.printed (editTagsSpec opt stdin t).comments))
    ∧ (∀ (p : List Nat) (opt : options) (stdin : List (List Nat)) (t : opus_tags),
      noEdit opt = true → parse_tags p = some t →
      process_tags p opt false stdin = some (.printed t.comments))
    ∧ (∀ (canon : String → Option String) (fileExists : String → Bool) (opt : options)
        (pages : List oggPage) (stdin : List (List Nat)),
        opt.path_out = "" → opt.inplace = none →
        (run canon fileExists opt pages stdin).output = []) := by
  refine ⟨?_, ?_, ?_⟩
  · intro p opt stdin t hp
    simp [process_tags, hp, editTags_spec_eq opt stdin t]
  · intro p opt stdin t hne hp
    simp [process_tags, hp, editTags_noEdit opt stdin t hne]
  · intro canon fileExists opt pages stdin hpo hip
    have hw : writeModeOf opt = false := writeModeOf_false opt hip hpo
    unfold run
    split
    · rfl
    · split
      · rfl
      · rw [finishRun_output, hw, runPages_read_out]
        rfl

/-- C9 witness: with delete-all requested the read-only mode prints the
parsed comment list with the edits applied (here: emptied); with default
options it prints exactly the parsed comment; and the read-only run yields
no output pages. -/
theorem C9_witness :
    process_tags exPacket exDeleteAllReadOpt false []
      = some (.printed (editTagsSpec exDeleteAllReadOpt [] exTags).comments)
    ∧ process_tags exPacket exReadOpt false [] = some (.printed exTags.comments)
    ∧ (run noCanon noFile exReadOpt exPages []).output = [] :=
  ⟨C9_read_mode_print.1 exPacket exDeleteAllReadOpt [] exTags (by decide),
   C9_read_mode_print.2.1 exPacket exReadOpt [] exTags (by decide) (by decide),
   C9_read_mode_print.2.2 noCanon noFile exReadOpt exPages [] rfl rfl⟩

/-- C9 counterexample to the claim as stated: in read-only mode the edits
are still applied before printing, so with delete-all requested the
printed list is empty rather than the parsed comment list. -/
theorem C9_counterexample :
    parse_tags exPacket = some exTags
    ∧ exTags.comments = [[65, 61, 66]]
    ∧ process_tags exPacket exDeleteAllReadOpt false [] = some (.printed [])
    ∧ some (tagsAction.printed []) ≠ some (tagsAction.printed exTags.comments) := by
  decide

/-! ## Lemmas on the stream analysis -/

theorem attachFlags_length (pg : oggPage) (e : Bool) (ps : List (List Nat)) :
    (attachFlags pg e ps).length = ps.length := by
  induction ps with
  | nil => rfl
  | cons b rest ih =>
    cases rest with
    | nil => rfl
    | cons c rest2 =>
      simp only [attachFlags, List.length_cons] at ih ⊢
      omega

theorem packetsFrom_append (c : Option (List Nat)) (xs ys : List oggPage) :
    packetsFrom c (xs ++ ys) = packetsFrom c xs ++ packetsFrom (scanFrom c xs) ys := by
  induction xs generalizing c with
  | nil => rfl
  | cons pg rest ih =>
    simp only [List.cons_append, packetsFrom, scanFrom, List.append_assoc,
      List.append_eq, ih]

theorem scanFrom_append (c : Option (List Nat)) (xs ys : List oggPage) :
    scanFrom c (xs ++ ys) = scanFrom (scanFrom c xs) ys := by
  induction xs generalizing c with
  | nil => rfl
  | cons pg rest ih =>
    simp only [List.cons_append, scanFrom, List.append_eq, ih]

theorem take_succ_get (pages : List oggPage) (i : Nat) (h : i < pages.length) :
    pages.take (i + 1) = pages.take i ++ [pages.get ⟨i, h⟩] := by
  have hc := List.take_concat_get pages i h
  rw [List.concat_eq_append] at hc
  rw [← hc]
  simp [List.get_eq_getElem]

theorem completedBy_succ (pages : List oggPage) (i : Nat) (h : i < pages.length) :
    completedBy pages (i + 1)
      = completedBy pages i
        + (splitSegs (carryAt pages i) (pages.get ⟨i, h⟩).segments).1.length
    ∧ carryAt pages (i + 1)
      = (splitSegs (carryAt pages i) (pages.get ⟨i, h⟩).segments).2 := by
  constructor
  · rw [completedBy, take_succ_get pages i h, packetsFrom_append]
    simp [completedBy, carryAt, packetsFrom]
  · rw [carryAt, take_succ_get pages i h, scanFrom_append]
    simp [carryAt, scanFrom]

theorem completedBy_le_succ (pages : List oggPage) (i : Nat) :
    completedBy pages i ≤ completedBy pages (i + 1) := by
  by_cases h : i < pages.length
  · rw [(completedBy_succ pages i h).1]; omega
  · unfold completedBy
    rw [List.take_of_length_le (by omega), List.take_of_length_le (by omega)]

theorem completedBy_mono (pages : List oggPage) {i j : Nat} (h : i ≤ j) :
    completedBy pages i ≤ completedBy pages j := by
  induction j with
  | zero =>
    have h0 : i = 0 := by omega
    subst h0; exact le_refl _
  | succ j ih =>
    rcases Nat.lt_or_ge i (j + 1) with hlt | hge
    · exact le_trans (ih (by omega)) (completedBy_le_succ pages j)
    · have hij : i = j + 1 := by omega
      subst hij; exact le_refl _

theorem processPackets_small (opt : options) (w : Bool) (s : List (List Nat))
    (qs : List modelPacket) (ist : innerSt)
    (herr : ist.error = none) (hbrk : ist.brk = false)
    (h0 : 0 ≤ ist.count) (hlt : ist.count + qs.length < 2) :
    (processPackets opt w s qs ist).error.isSome = true
    ∨ ((processPackets opt w s qs ist).error = none
      ∧ (processPackets opt w s qs ist).brk = false
      ∧ (processPackets opt w s qs ist).count = ist.count + qs.length
      ∧ (processPackets opt w s qs ist).printed = ist.printed) := by
  match qs with
  | [] => right; exact ⟨herr, hbrk, by simp [processPackets], rfl⟩
  | [q] =>
    have hc0 : ist.count = 0 := by
      simp only [List.length_cons, List.length_nil] at hlt; omega
    simp only [processPackets, herr, hbrk, hc0]
    norm_num
    cases hv : validate_identification_header q.bytes with
    | false =>
      left
      simp [hv, processPackets]
    | true =>
      right
      simp [hv, processPackets, herr, hbrk]
  | q1 :: q2 :: qs2 =>
    exfalso
    simp only [List.length_cons] at hlt
    omega

theorem firstSerial_get (pages : List oggPage) (h : 0 < pages.length) :
    (pages.get ⟨0, h⟩).serialno = firstSerial pages := by
  cases pages with
  | nil => exact absurd h (by simp)
  | cons p0 rest => rfl

theorem carryAt_zero (pages : List oggPage) : carryAt pages 0 = none := rfl

theorem completedBy_zero (pages : List oggPage) : completedBy pages 0 = 0 := rfl

theorem stepPage_aligned (opt : options) (w : Bool) (s : List (List Nat))
    (pages : List oggPage) (i : Nat) (hilt : i < pages.length)
    (st : loopSt)
    (he : st.error = none) (hs : st.stop = false)
    (hct : st.count = if i = 0 then (-1 : Int) else (completedBy pages i : Int))
    (hsr : st.serial = if i = 0 then none else some (firstSerial pages))
    (hbf : st.buf = carryAt pages i)
    (hcnt : completedBy pages (i + 1) < 2) :
    ((stepPage opt w s st (pages.get ⟨i, hilt⟩)).error.isSome = true
      ∧ (stepPage opt w s st (pages.get ⟨i, hilt⟩)).stop = true)
    ∨ ((stepPage opt w s st (pages.get ⟨i, hilt⟩)).error = none
      ∧ (stepPage opt w s st (pages.get ⟨i, hilt⟩)).stop = false
      ∧ (stepPage opt w s st (pages.get ⟨i, hilt⟩)).count
          = (completedBy pages (i + 1) : Int)
      ∧ (stepPage opt w s st (pages.get ⟨i, hilt⟩)).serial
          = some (firstSerial pages)
      ∧ (stepPage opt w s st (pages.get ⟨i, hilt⟩)).buf = carryAt pages (i + 1)) := by
  have hci : completedBy pages i < 2 :=
    lt_of_le_of_lt (completedBy_le_succ pages i) hcnt
  have hsucc := completedBy_succ pages i hilt
  have hnotsc : ¬(2 ≤ st.count ∧ w = true) := by
    rintro ⟨h2, _⟩
    rw [hct] at h2
    by_cases h0 : i = 0
    · rw [if_pos h0] at h2; omega
    · rw [if_neg h0] at h2
      have hcast : (completedBy pages i : Int) < 2 := by exact_mod_cast hci
      omega
  unfold stepPage
  rw [if_neg hnotsc]
  by_cases h0 : i = 0
  · subst h0
    rw [if_pos rfl] at hct hsr
    simp only [Nat.zero_add] at hcnt hsucc ⊢
    have h1 := hsucc.1
    rw [carryAt_zero, completedBy_zero] at h1
    simp only [Nat.zero_add] at h1
    have hb1 := hsucc.2
    rw [carryAt_zero] at hb1
    simp only [hct, hsr, hbf, carryAt_zero, Option.isSome_none, if_pos rfl,
      reduceIte, if_true]
    by_cases hpi : (pages.get ⟨0, hilt⟩).serialno ≠ (pages.get ⟨0, hilt⟩).serialno
        ∨ (pages.get ⟨0, hilt⟩).continued ≠ false
    · rw [if_pos hpi]
      left; exact ⟨rfl, rfl⟩
    · rw [if_neg hpi]
      have hlen := attachFlags_length (pages.get ⟨0, hilt⟩)
        (splitSegs (none : Option (List Nat)) (pages.get ⟨0, hilt⟩).segments).2.isNone
        (splitSegs (none : Option (List Nat)) (pages.get ⟨0, hilt⟩).segments).1
      have hl2 : (splitSegs (none : Option (List Nat))
          (pages.get ⟨0, hilt⟩).segments).1.length < 2 := by
        rw [← h1]; exact hcnt
      have hsmall := processPackets_small opt w s
        (attachFlags (pages.get ⟨0, hilt⟩)
          (splitSegs (none : Option (List Nat)) (pages.get ⟨0, hilt⟩).segments).2.isNone
          (splitSegs (none : Option (List Nat)) (pages.get ⟨0, hilt⟩).segments).1)
        ⟨0, [], none, st.printed, false⟩ rfl rfl (le_refl 0)
        (by
          show (0 : Int)
            + ((attachFlags (pages.get ⟨0, hilt⟩)
                (splitSegs (none : Option (List Nat)) (pages.get ⟨0, hilt⟩).segments).2.isNone
                (splitSegs (none : Option (List Nat)) (pages.get ⟨0, hilt⟩).segments).1).length
              : Int) < 2
          rw [hlen]
          push_cast
          omega)
      rcases hsmall with hserr | ⟨hierr, _, hicnt, _⟩
      · left
        rw [if_pos hserr]
        exact ⟨hserr, rfl⟩
      · rw [if_neg (by rw [hierr]; simp)]
        have hcnt1 : ((⟨0, [], none, st.printed, false⟩ : innerSt).count
            + ((attachFlags (pages.get ⟨0, hilt⟩)
                (splitSegs (none : Option (List Nat)) (pages.get ⟨0, hilt⟩).segments).2.isNone
                (splitSegs (none : Option (List Nat)) (pages.get ⟨0, hilt⟩).segments).1).length
              : Int))
            = (completedBy pages 1 : Int) := by
          show (0 : Int) + _ = _
          rw [hlen, h1]
          push_cast
          omega
        cases w with
        | true =>
          rw [if_pos rfl]
          right
          refine ⟨he, hs, ?_, ?_, hb1.symm⟩
          · rw [hicnt, hcnt1]
          · rw [firstSerial_get pages hilt]
        | false =>
          rw [if_neg (by simp)]
          rw [if_neg (by
            rw [hicnt, hcnt1]
            have hc3 : (completedBy pages 1 : Int) < 2 := by exact_mod_cast hcnt
            omega)]
          right
          refine ⟨he, hs, ?_, ?_, hb1.symm⟩
          · rw [hicnt, hcnt1]
          · rw [firstSerial_get pages hilt]
  · rw [if_neg h0] at hct hsr
    have hne2 : ¬ ((completedBy pages i : Int) = -1) := by
      have hge : (0 : Int) ≤ (completedBy pages i : Int) := by
        exact_mod_cast Nat.zero_le _
      omega
    simp only [hct, hsr, hbf, Option.getD_some, if_neg hne2]
    by_cases hpi : (pages.get ⟨i, hilt⟩).serialno ≠ firstSerial pages
        ∨ (pages.get ⟨i, hilt⟩).continued ≠ (carryAt pages i).isSome
    · rw [if_pos hpi]
      left; exact ⟨rfl, rfl⟩
    · rw [if_neg hpi]
      have hlen := attachFlags_length (pages.get ⟨i, hilt⟩)
        (splitSegs (carryAt pages i) (pages.get ⟨i, hilt⟩).segments).2.isNone
        (splitSegs (carryAt pages i) (pages.get ⟨i, hilt⟩).segments).1
      have hsmall := processPackets_small opt w s
        (attachFlags (pages.get ⟨i, hilt⟩)
          (splitSegs (carryAt pages i) (pages.get ⟨i, hilt⟩).segments).2.isNone
          (splitSegs (carryAt pages i) (pages.get ⟨i, hilt⟩).segments).1)
        ⟨(completedBy pages i : Int), [], none, st.printed, false⟩ rfl rfl
        (by
          show (0 : Int) ≤ ((completedBy pages i : Nat) : Int)
          exact_mod_cast Nat.zero_le _)
        (by
          show ((completedBy pages i : Nat) : Int)
            + ((attachFlags (pages.get ⟨i, hilt⟩)
                (splitSegs (carryAt pages i) (pages.get ⟨i, hilt⟩).segments).2.isNone
                (splitSegs (carryAt pages i) (pages.get ⟨i, hilt⟩).segments).1).length
              : Int) < 2
          rw [hlen]
          have hc2 := hcnt
          rw [hsucc.1] at hc2
          push_cast
          omega)
      rcases hsmall with hserr | ⟨hierr, _, hicnt, _⟩
      · left
        rw [if_pos hserr]
        exact ⟨hserr, rfl⟩
      · rw [if_neg (by rw [hierr]; simp)]
        have hcnt1 : ((⟨(completedBy pages i : Int), [], none, st.printed, false⟩
              : innerSt).count
            + ((attachFlags (pages.get ⟨i, hilt⟩)
                (splitSegs (carryAt pages i) (pages.get ⟨i, hilt⟩).segments).2.isNone
                (splitSegs (carryAt pages i) (pages.get ⟨i, hilt⟩).segments).1).length
              : Int))
            = (completedBy pages (i + 1) : Int) := by
          show ((completedBy pages i : Nat) : Int) + _ = _
          rw [hlen, hsucc.1]
          push_cast
          omega
        cases w with
        | true =>
          rw [if_pos rfl]
          right
          refine ⟨he, hs, ?_, rfl, hsucc.2.symm⟩
          rw [hicnt, hcnt1]
        | false =>
          rw [if_neg (by simp)]
          rw [if_neg (by
            rw [hicnt, hcnt1]
            have hc3 : (completedBy pages (i + 1) : Int) < 2 := by exact_mod_cast hcnt
            omega)]
          right
          refine ⟨he, hs, ?_, rfl, hsucc.2.symm⟩
          rw [hicnt, hcnt1]

theorem runPages_aligned (opt : options) (w : Bool) (s : List (List Nat))
    (pages : List oggPage) (i : Nat) (hi : i ≤ pages.length)
    (hcnt : completedBy pages i < 2) :
    ((runPages opt w s (pages.take i) initSt).error.isSome = true
      ∧ (runPages opt w s (pages.take i) initSt).stop = true)
    ∨ ((runPages opt w s (pages.take i) initSt).error = none
      ∧ (runPages opt w s (pages.take i) initSt).stop = false
      ∧ (runPages opt w s (pages.take i) initSt).count
          = (if i = 0 then (-1 : Int) else (completedBy pages i : Int))
      ∧ (runPages opt w s (pages.take i) initSt).serial
          = (if i = 0 then none else some (firstSerial pages))
      ∧ (runPages opt w s (pages.take i) initSt).buf = carryAt pages i) := by
  induction i with
  | zero => right; exact ⟨rfl, rfl, rfl, rfl, rfl⟩
  | succ i ih =>
    have hilt : i < pages.length := by omega
    have hcnti : completedBy pages i < 2 :=
      lt_of_le_of_lt (completedBy_le_succ pages i) hcnt
    rcases ih (by omega) hcnti with ⟨he, hs⟩ | ⟨he, hs, hct, hsr, hbf⟩
    · rw [take_succ_get pages i hilt, runPages_append, runPages_stop _ _ _ _ _ hs]
      exact Or.inl ⟨he, hs⟩
    · rw [take_succ_get pages i hilt, runPages_append]
      have hone : runPages opt w s [pages.get ⟨i, hilt⟩]
            (runPages opt w s (pages.take i) initSt)
          = stepPage opt w s (runPages opt w s (pages.take i) initSt)
              (pages.get ⟨i, hilt⟩) := by
        simp [runPages, hs]
      rw [hone]
      rcases stepPage_aligned opt w s pages i hilt
          (runPages opt w s (pages.take i) initSt) he hs hct hsr hbf hcnt
        with hl | ⟨h1, h2, h3, h4, h5⟩
      · exact Or.inl hl
      · right
        refine ⟨h1, h2, ?_, ?_, h5⟩
        · rw [h3, if_neg (by omega)]
        · rw [h4, if_neg (by omega)]

theorem stepPage_mismatch (opt : options) (w : Bool) (s : List (List Nat))
    (st : loopSt) (pg : oggPage) (sr : Nat)
    (hs2 : st.count < 2) (hct : st.count ≠ -1)
    (hsr : st.serial = some sr) (hmm : pg.serialno ≠ sr) :
    (stepPage opt w s st pg).error.isSome = true
    ∧ (stepPage opt w s st pg).stop = true := by
  unfold stepPage
  rw [if_neg (by rintro ⟨h2, _⟩; omega)]
  simp only [hsr, if_neg hct, Option.getD_some]
  rw [if_pos (Or.inl hmm)]
  exact ⟨rfl, rfl⟩

theorem finishRun_exit_of_error (toFile : Bool) (st : loopSt)
    (h : st.error.isSome = true) :
    (finishRun toFile st).exitCode = 1 ∧ (finishRun toFile st).error.isSome = true := by
  cases hE : st.error with
  | none => rw [hE] at h; exact absurd h (by simp)
  | some e =>
    simp only [finishRun, hE]
    rw [if_neg (by rintro ⟨hc, _⟩; simp at hc)]
    exact ⟨rfl, rfl⟩

/-- C8: a page whose serial number differs from the first page's, reached
while fewer than two packets are complete, makes the run fail with a
protocol diagnostic instead of being processed or skipped, in either
mode. -/
theorem C8_foreign_serial_fails (canon : String → Option String)
    (fileExists : String → Bool) (opt : options) (pages : List oggPage)
    (stdin : List (List Nat)) (i : Nat)
    (h0 : 0 < pages.length) (hi : i < pages.length)
    (hser : (pages.get ⟨i, hi⟩).serialno ≠ (pages.get ⟨0, h0⟩).serialno)
    (hcnt : completedBy pages i < 2) :
    (run canon fileExists opt pages stdin).exitCode = 1
    ∧ (run canon fileExists opt pages stdin).error.isSome = true := by
  have hne0 : i ≠ 0 := by
    rintro rfl
    exact hser rfl
  have hfs : (pages.get ⟨i, hi⟩).serialno ≠ firstSerial pages := by
    rw [← firstSerial_get pages h0]; exact hser
  unfold run
  split
  · exact ⟨rfl, rfl⟩
  · split
    · exact ⟨rfl, rfl⟩
    · have hsplit : pages = pages.take i ++ (pages.get ⟨i, hi⟩ :: pages.drop (i + 1)) := by
        have hd := List.drop_eq_getElem_cons hi
        conv_lhs => rw [← List.take_append_drop i pages]
        rw [hd]
        simp [List.get_eq_getElem]
      have hloop : (runPages opt (writeModeOf opt) stdin pages initSt).error.isSome
          = true := by
        rcases runPages_aligned opt (writeModeOf opt) stdin pages i (le_of_lt hi) hcnt
          with ⟨he, hs⟩ | ⟨he, hs, hct, hsr, hbf⟩
        · conv_lhs => rw [hsplit]
          rw [runPages_append, runPages_stop _ _ _ _ _ hs]
          exact he
        · conv_lhs => rw [hsplit]
          rw [runPages_append]
          rw [show runPages opt (writeModeOf opt) stdin
              (pages.get ⟨i, hi⟩ :: pages.drop (i + 1))
              (runPages opt (writeModeOf opt) stdin (pages.take i) initSt)
            = runPages opt (writeModeOf opt) stdin (pages.drop (i + 1))
                (stepPage opt (writeModeOf opt) stdin
                  (runPages opt (writeModeOf opt) stdin (pages.take i) initSt)
                  (pages.get ⟨i, hi⟩)) from by simp [runPages, hs]]
          have hstep := stepPage_mismatch opt (writeModeOf opt) stdin
            (runPages opt (writeModeOf opt) stdin (pages.take i) initSt)
            (pages.get ⟨i, hi⟩) (firstSerial pages)
            (by
              rw [hct, if_neg hne0]
              have : completedBy pages i < 2 := hcnt
              exact_mod_cast this)
            (by
              rw [hct, if_neg hne0]
              have hge : (0 : Int) ≤ (completedBy pages i : Int) := by
                exact_mod_cast Nat.zero_le _
              omega)
            (by rw [hsr, if_neg hne0]) hfs
          rw [runPages_stop _ _ _ _ _ hstep.2]
          exact hstep.1
      exact finishRun_exit_of_error _ _ hloop

/-- C8 witness: a second page with serial 9 after a first page with serial 7
aborts the run. -/
theorem C8_witness :
    (run noCanon noFile exReadOpt [exIdPage, exRoguePage] []).exitCode = 1
    ∧ (run noCanon noFile exReadOpt [exIdPage, exRoguePage] []).error.isSome = true :=
  C8_foreign_serial_fails noCanon noFile exReadOpt [exIdPage, exRoguePage] [] 1
    (by decide) (by decide) (by decide) (by decide)

/-! ## Lemmas on lacing and reassembly -/

theorem laceN_eq_lace : ∀ (f : Nat) (b : List Nat), b.length ≤ f → laceN f b = lace b := by
  intro f
  induction f using Nat.strong_induction_on with
  | _ f ih =>
    intro b hb
    match f with
    | 0 =>
      have hb0 : b.length = 0 := by omega
      unfold lace
      rw [hb0]
    | f + 1 =>
      by_cases hsm : b.length < 255
      · unfold lace laceN
        rw [if_pos hsm]
        match hlen : b.length with
        | 0 => rfl
        | n + 1 =>
          simp only [laceN]
          rw [if_pos (by omega)]
      · unfold lace laceN
        rw [if_neg hsm]
        match hlen : b.length with
        | 0 => exact absurd hlen (by omega)
        | n + 1 =>
          simp only [laceN]
          rw [if_neg (by omega)]
          have hdl : (b.drop 255).length = b.length - 255 := by
            simp [List.length_drop]
          congr 1
          · rw [ih f (by omega) _ (by omega)]
            rw [ih n (by omega) _ (by omega)]

theorem lace_small {b : List Nat} (h : b.length < 255) : lace b = [b] := by
  unfold lace
  match hlen : b.length with
  | 0 => rfl
  | n + 1 =>
    simp only [laceN]
    rw [if_pos (by omega)]

theorem lace_big {b : List Nat} (h : 255 ≤ b.length) :
    lace b = b.take 255 :: lace (b.drop 255) := by
  conv_lhs => unfold lace
  match hlen : b.length with
  | 0 => exact absurd hlen (by omega)
  | n + 1 =>
    simp only [laceN]
    rw [if_neg (by omega)]
    congr 1
    exact laceN_eq_lace n _ (by simp [List.length_drop]; omega)

theorem lace_chunk {s p : List Nat} (h : s.length = 255) :
    lace (s ++ p) = s :: lace p := by
  rw [lace_big (by simp [List.length_append]; omega)]
  rw [List.take_left' h, List.drop_left' h]

theorem splitSegs_last_short :
    ∀ (segs : List (List Nat)) (c : Option (List Nat)) (s : List Nat),
      segs.getLast? = some s → s.length < 255 → (splitSegs c segs).2 = none := by
  intro segs
  induction segs with
  | nil => intro c s h _; simp at h
  | cons a rest ih =>
    intro c s hlast hshort
    cases rest with
    | nil =>
      simp only [List.getLast?_singleton, Option.some.injEq] at hlast
      subst hlast
      simp only [splitSegs]
      rw [if_neg (by omega)]
    | cons b rest2 =>
      rw [List.getLast?_cons_cons] at hlast
      simp only [splitSegs]
      by_cases h255 : a.length = 255
      · rw [if_pos h255]
        exact ih _ s hlast hshort
      · rw [if_neg h255]
        exact ih none s hlast hshort

theorem splitSegs_fst_ne_nil :
    ∀ (segs : List (List Nat)) (c : Option (List Nat)),
      segs ≠ [] → (splitSegs c segs).2 = none → (splitSegs c segs).1 ≠ [] := by
  intro segs
  induction segs with
  | nil => intro c h _; exact absurd rfl h
  | cons a rest ih =>
    intro c _ hnone
    simp only [splitSegs] at hnone ⊢
    by_cases h255 : a.length = 255
    · rw [if_pos h255] at hnone ⊢
      cases rest with
      | nil => simp [splitSegs] at hnone
      | cons b rest2 => exact ih _ (by simp) hnone
    · rw [if_neg h255] at hnone ⊢
      simp

theorem splitSegs_rebuild :
    ∀ (segs : List (List Nat)),
      (∀ s ∈ segs, s.length ≤ 255) →
      (∀ ps, splitSegs none segs = (ps, none) → ps.flatMap lace = segs)
      ∧ (∀ cc ps, splitSegs (some cc) segs = (ps, none) →
          ∃ p1 ps1, ps = (cc ++ p1) :: ps1 ∧ lace p1 ++ ps1.flatMap lace = segs) := by
  intro segs
  induction segs with
  | nil =>
    intro _
    refine ⟨?_, ?_⟩
    · intro ps h
      simp only [splitSegs, Prod.mk.injEq] at h
      rw [← h.1]
      rfl
    · intro cc ps h
      simp only [splitSegs, Prod.mk.injEq] at h
      exact absurd h.2 (by simp)
  | cons a rest ih =>
    intro hle
    have hle1 : ∀ s ∈ rest, s.length ≤ 255 := fun s hs => hle s (by simp [hs])
    have ha : a.length ≤ 255 := hle a (by simp)
    obtain ⟨ihn, ihs⟩ := ih hle1
    constructor
    · intro ps h
      simp only [splitSegs] at h
      by_cases h255 : a.length = 255
      · rw [if_pos h255] at h
        simp only [Option.getD_none, List.nil_append] at h
        obtain ⟨p1, ps1, hps, hrec⟩ := ihs a ps h
        subst hps
        simp only [List.flatMap_cons]
        rw [lace_chunk h255, ← hrec]
        simp
      · rw [if_neg h255] at h
        rcases hrest : splitSegs none rest with ⟨f2, s2⟩
        rw [hrest] at h
        simp only [Option.getD_none, List.nil_append, Prod.mk.injEq] at h
        obtain ⟨hps, hnone⟩ := h
        subst hps
        subst hnone
        simp only [List.flatMap_cons]
        rw [lace_small (by omega), ihn f2 hrest]
        rfl
    · intro cc ps h
      simp only [splitSegs] at h
      by_cases h255 : a.length = 255
      · rw [if_pos h255] at h
        simp only [Option.getD_some] at h
        obtain ⟨p1, ps1, hps, hrec⟩ := ihs (cc ++ a) ps h
        subst hps
        refine ⟨a ++ p1, ps1, by rw [List.append_assoc], ?_⟩
        rw [lace_chunk h255, ← hrec]
        simp
      · rw [if_neg h255] at h
        rcases hrest : splitSegs none rest with ⟨f2, s2⟩
        rw [hrest] at h
        simp only [Option.getD_some, Prod.mk.injEq] at h
        obtain ⟨hps, hnone⟩ := h
        subst hps
        subst hnone
        refine ⟨a, f2, rfl, ?_⟩
        rw [lace_small (by omega), ihn f2 hrest]
        rfl

theorem splitSegs_bytes (P : Nat → Prop) :
    ∀ (segs : List (List Nat)) (c : Option (List Nat)),
      (∀ cc, c = some cc → ∀ b ∈ cc, P b) →
      (∀ s ∈ segs, ∀ b ∈ s, P b) →
      (∀ p ∈ (splitSegs c segs).1, ∀ b ∈ p, P b)
      ∧ (∀ cc, (splitSegs c segs).2 = some cc → ∀ b ∈ cc, P b) := by
  intro segs
  induction segs with
  | nil =>
    intro c hc _
    refine ⟨?_, ?_⟩
    · intro p hp; simp [splitSegs] at hp
    · intro cc hcc
      simp only [splitSegs] at hcc
      exact hc cc hcc
  | cons a rest ih =>
    intro c hc hs
    have hcur : ∀ b ∈ c.getD [] ++ a, P b := by
      intro b hb
      rcases List.mem_append.mp hb with hb1 | hb2
      · cases c with
        | none => simp at hb1
        | some cc => exact hc cc rfl b hb1
      · exact hs a (by simp) b hb2
    have hs1 : ∀ s ∈ rest, ∀ b ∈ s, P b := fun s hsm => hs s (by simp [hsm])
    simp only [splitSegs]
    by_cases h255 : a.length = 255
    · rw [if_pos h255]
      refine ih _ ?_ hs1
      intro cc2 hcc2
      injection hcc2 with h2
      rw [← h2]
      exact hcur
    · rw [if_neg h255]
      obtain ⟨ih1, ih2⟩ := ih none (fun cc h => absurd h (by simp)) hs1
      refine ⟨?_, ih2⟩
      intro p hp
      rcases List.mem_cons.mp hp with hp1 | hp2
      · subst hp1; exact hcur
      · exact ih1 p hp2

theorem attachFlags_bytes (pg : oggPage) (e : Bool) :
    ∀ ps : List (List Nat), (attachFlags pg e ps).map (fun p => p.bytes) = ps := by
  intro ps
  induction ps with
  | nil => rfl
  | cons b rest ih =>
    cases rest with
    | nil => rfl
    | cons c rest2 =>
      simp only [attachFlags, List.map_cons]
      rw [ih]

theorem replaceAt2_bytes : ∀ (c0 : Int) (qs : List modelPacket),
    (replaceAt2 c0 qs).map (fun p => p.bytes) = qs.map (fun p => p.bytes) := by
  intro c0 qs
  induction qs generalizing c0 with
  | nil => rfl
  | cons q rest ih =>
    simp only [replaceAt2, List.map_cons, ih]
    congr 1
    by_cases h : c0 + 1 = 2 <;> simp [h]

theorem replaceAt2_length : ∀ (c0 : Int) (qs : List modelPacket),
    (replaceAt2 c0 qs).length = qs.length := by
  intro c0 qs
  induction qs generalizing c0 with
  | nil => rfl
  | cons q rest ih => simp [replaceAt2, ih]

theorem replaceAt2_ge2 : ∀ (c0 : Int) (qs : List modelPacket), 2 ≤ c0 →
    replaceAt2 c0 qs = qs := by
  intro c0 qs
  induction qs generalizing c0 with
  | nil => intro _; rfl
  | cons q rest ih =>
    intro h2
    simp only [replaceAt2]
    rw [if_neg (by omega), ih _ (by omega)]

theorem getLast?_cons_of_ne_nil {α : Type} (a : α) (l : List α) (h : l ≠ []) :
    (a :: l).getLast? = l.getLast? := by
  cases l with
  | nil => exact absurd rfl h
  | cons b m => exact List.getLast?_cons_cons

theorem flatMap_lace_bytes : ∀ l : List modelPacket,
    l.flatMap (fun p => lace p.bytes) = (l.map (fun p => p.bytes)).flatMap lace := by
  intro l
  induction l with
  | nil => rfl
  | cons p rest ih => simp only [List.flatMap_cons, List.map_cons, ih]

theorem decor_flags (pg : oggPage) :
    ∀ (ps : List (List Nat)) (c0 : Int), ps ≠ [] →
      ((c0 + ps.length = 2 →
          (replaceAt2 c0 (attachFlags pg true ps)).any (fun p => p.eos) = false
          ∧ ((replaceAt2 c0 (attachFlags pg true ps)).getLast?).map
              (fun p => p.granulepos) = some 0)
        ∧ (¬ c0 + ps.length = 2 →
          (replaceAt2 c0 (attachFlags pg true ps)).any (fun p => p.eos) = pg.eos
          ∧ ((replaceAt2 c0 (attachFlags pg true ps)).getLast?).map
              (fun p => p.granulepos) = some pg.granulepos)) := by
  intro ps
  induction ps with
  | nil => intro c0 h; exact absurd rfl h
  | cons b rest ih =>
    intro c0 _
    cases rest with
    | nil =>
      constructor
      · intro h2
        have hc : c0 + 1 = 2 := by simpa using h2
        simp [attachFlags, replaceAt2, hc]
      · intro h2
        have hc : ¬ c0 + 1 = 2 := by simpa using h2
        simp [attachFlags, replaceAt2, hc]
    | cons c rest2 =>
      have hne : replaceAt2 (c0 + 1) (attachFlags pg true (c :: rest2)) ≠ [] := by
        have hl : (replaceAt2 (c0 + 1) (attachFlags pg true (c :: rest2))).length
            = rest2.length + 1 := by
          rw [replaceAt2_length, attachFlags_length]
          rfl
        intro habs
        rw [habs] at hl
        simp at hl
      obtain ⟨ihA, ihB⟩ := ih (c0 + 1) (by simp)
      constructor
      · intro h2
        have hc1 : ¬ (c0 + 1 = 2) := by
          simp only [List.length_cons] at h2
          omega
        have hrec := ihA (by simp only [List.length_cons] at h2 ⊢; push_cast at h2 ⊢; omega)
        simp only [attachFlags, replaceAt2, if_neg hc1]
        constructor
        · simp only [List.any_cons]
          rw [hrec.1]
          rfl
        · rw [getLast?_cons_of_ne_nil _ _ hne]
          exact hrec.2
      · intro h2
        have hrec := ihB (by simp only [List.length_cons] at h2 ⊢; push_cast at h2 ⊢; omega)
        simp only [attachFlags, replaceAt2]
        constructor
        · simp only [List.any_cons, hrec.1]
          by_cases hcc : c0 + 1 = 2 <;> simp [hcc]
        · rw [getLast?_cons_of_ne_nil _ _ hne]
          exact hrec.2

theorem oggPage_ext {x y : oggPage}
    (h1 : x.continued = y.continued) (h2 : x.bos = y.bos) (h3 : x.eos = y.eos)
    (h4 : x.granulepos = y.granulepos) (h5 : x.serialno = y.serialno)
    (h6 : x.pageno = y.pageno) (h7 : x.segments = y.segments) : x = y := by
  cases x; cases y; simp_all

theorem mkFlushPage_eq (pg : oggPage) (sr wj : Nat) (ps : List (List Nat)) (c0 : Int)
    (hps : ps ≠ [])
    (hsegs : ps.flatMap lace = pg.segments)
    (hcont : pg.continued = false)
    (hserial : pg.serialno = sr)
    (hpageno : pg.pageno = wj)
    (hbos : pg.bos = decide (wj = 0))
    (htail : c0 + ps.length = 2 → pg.eos = false ∧ pg.granulepos = 0) :
    mkFlushPage sr wj (replaceAt2 c0 (attachFlags pg true ps)) = pg := by
  have hbytes : (replaceAt2 c0 (attachFlags pg true ps)).map (fun p => p.bytes) = ps := by
    rw [replaceAt2_bytes, attachFlags_bytes]
  have hsegs2 : (replaceAt2 c0 (attachFlags pg true ps)).flatMap (fun p => lace p.bytes)
      = pg.segments := by
    rw [flatMap_lace_bytes, hbytes, hsegs]
  have hflags := decor_flags pg ps c0 hps
  have heos : (replaceAt2 c0 (attachFlags pg true ps)).any (fun p => p.eos) = pg.eos := by
    by_cases hc : c0 + ps.length = 2
    · rw [(hflags.1 hc).1, (htail hc).1]
    · exact (hflags.2 hc).1
  have hgran : (((replaceAt2 c0 (attachFlags pg true ps)).getLast?).map
      (fun p => p.granulepos)).getD (-1) = pg.granulepos := by
    by_cases hc : c0 + ps.length = 2
    · rw [(hflags.1 hc).2, (htail hc).2]
      rfl
    · rw [(hflags.2 hc).2]
      rfl
  exact oggPage_ext hcont.symm hbos.symm heos hgran hserial.symm hpageno.symm hsegs2

theorem processPackets_ok (opt : options) (s : List (List Nat)) :
    ∀ (qs : List modelPacket) (ic : Int) (ia : List modelPacket)
      (ip : Option (List (List Nat))),
    0 ≤ ic →
    (∀ (m : Nat) (q : modelPacket), qs.get? m = some q →
      (ic + (m : Int) + 1 = 1 → validate_identification_header q.bytes = true)
      ∧ (ic + (m : Int) + 1 = 2 →
          process_tags q.bytes opt true s = some (.packetIn q.bytes))) →
    processPackets opt true s qs ⟨ic, ia, none, ip, false⟩
      = ⟨ic + qs.length, ia ++ replaceAt2 ic qs, none, ip, false⟩ := by
  intro qs
  induction qs with
  | nil =>
    intro ic ia ip h0 hH
    simp [processPackets, replaceAt2]
  | cons q rest ih =>
    intro ic ia ip h0 hH
    have hHq := hH 0 q rfl
    have hHrest : ∀ (m : Nat) (q2 : modelPacket), rest.get? m = some q2 →
        ((ic + 1) + (m : Int) + 1 = 1 →
          validate_identification_header q2.bytes = true)
        ∧ ((ic + 1) + (m : Int) + 1 = 2 →
          process_tags q2.bytes opt true s = some (.packetIn q2.bytes)) := by
      intro m q2 hm
      have hh := hH (m + 1) q2 (by simpa using hm)
      constructor
      · intro hc; exact hh.1 (by push_cast at hc ⊢; omega)
      · intro hc; exact hh.2 (by push_cast at hc ⊢; omega)
    simp only [processPackets, Option.isSome_none, Bool.false_eq_true, or_self,
      if_false]
    by_cases hc1 : ic + 1 = 1
    · rw [if_pos (by exact_mod_cast hc1)]
      rw [hHq.1 (by omega), if_pos rfl]
      have hrec := ih (ic + 1) (ia ++ [q]) ip (by omega) hHrest
      simp only [if_true]
      rw [hrec]
      simp only [innerSt.mk.injEq, replaceAt2, List.length_cons]
      have hne : ¬(ic + 1 = 2) := by omega
      refine ⟨by push_cast; omega, ?_, trivial, trivial, trivial⟩
      rw [if_neg hne, List.append_assoc]
      rfl
    · by_cases hc2 : ic + 1 = 2
      · rw [if_neg (by exact_mod_cast hc1), if_pos (by exact_mod_cast hc2)]
        rw [hHq.2 (by omega)]
        have hrec := ih (ic + 1) (ia ++ [⟨q.bytes, false, 0⟩]) ip (by omega) hHrest
        simp only [if_true]
        rw [hrec]
        simp only [innerSt.mk.injEq, replaceAt2, List.length_cons]
        refine ⟨by push_cast; omega, ?_, trivial, trivial, trivial⟩
        rw [if_pos hc2, List.append_assoc]
        rfl
      · rw [if_neg (by exact_mod_cast hc1), if_neg (by exact_mod_cast hc2)]
        have hrec := ih (ic + 1) (ia ++ [q]) ip (by omega) hHrest
        simp only [if_true]
        rw [hrec]
        simp only [innerSt.mk.injEq, replaceAt2, List.length_cons]
        refine ⟨by push_cast; omega, ?_, trivial, trivial, trivial⟩
        rw [if_neg hc2, List.append_assoc]
        rfl

theorem pageWF_segments {pg : oggPage} (h : pageWF pg = true) :
    ∀ s ∈ pg.segments, s.length ≤ 255 ∧ ∀ b ∈ s, b < 256 := by
  intro s hs
  rw [pageWF, List.all_eq_true] at h
  have hh := h s hs
  simp only [Bool.and_eq_true, decide_eq_true_eq, List.all_eq_true] at hh
  exact ⟨hh.1, fun b hb => by have hb2 := hh.2 b hb; exact_mod_cast hb2⟩

theorem wholesome_spec {pg : oggPage} (h : wholesome pg = true) :
    ∃ s, pg.segments.getLast? = some s ∧ pg.continued = false ∧ s.length < 255 := by
  unfold wholesome at h
  cases hL : pg.segments.getLast? with
  | none => rw [hL] at h; simp at h
  | some s =>
    rw [hL] at h
    simp only [Bool.and_eq_true, Bool.not_eq_true', decide_eq_true_eq] at h
    exact ⟨s, rfl, h.1, h.2⟩

theorem carryAt_none_of_wholesome (pages : List oggPage) :
    ∀ (i : Nat), i ≤ pages.length →
      (∀ j, j < i → ∀ (hj : j < pages.length), wholesome (pages.get ⟨j, hj⟩) = true) →
      carryAt pages i = none := by
  intro i
  induction i with
  | zero => intro _ _; exact carryAt_zero pages
  | succ i ih =>
    intro hi hw
    have hilt : i < pages.length := by omega
    have hci : carryAt pages i = none := ih (by omega) (fun j hj hjl => hw j (by omega) hjl)
    have hsucc := (completedBy_succ pages i hilt).2
    obtain ⟨s, hL, _, hshort⟩ := wholesome_spec (hw i (by omega) hilt)
    rw [hsucc, hci]
    exact splitSegs_last_short _ none s hL hshort

theorem validStream_parts {pages : List oggPage} (h : validStream pages = true) :
    0 < pages.length
    ∧ (∀ pg ∈ pages, pageWF pg = true ∧ pg.serialno = firstSerial pages)
    ∧ (∀ (i : Nat) (hi : i < pages.length),
        (pages.get ⟨i, hi⟩).pageno = i
        ∧ (pages.get ⟨i, hi⟩).bos = decide (i = 0)
        ∧ (pages.get ⟨i, hi⟩).eos = decide (i = pages.length - 1)
        ∧ (pages.get ⟨i, hi⟩).continued = (carryAt pages i).isSome)
    ∧ scanFrom none pages = none
    ∧ ∃ p1 p2 rest2, streamPackets pages = p1 :: p2 :: rest2
        ∧ validate_identification_header p1 = true ∧ (parse_tags p2).isSome = true := by
  cases pages with
  | nil => simp [validStream] at h
  | cons p0 rest =>
    unfold validStream at h
    simp only [Bool.and_eq_true, List.all_eq_true, List.mem_range, beq_iff_eq,
      Option.isNone_iff_eq_none] at h
    obtain ⟨⟨⟨hA, hB⟩, hC⟩, hD⟩ := h
    refine ⟨by simp, ?_, ?_, hC, ?_⟩
    · intro pg hpg
      have := hA pg hpg
      exact ⟨this.1, this.2⟩
    · intro i hi
      have hBi := hB i hi
      rw [List.getElem?_eq_getElem hi] at hBi
      simp only [Bool.and_eq_true, beq_iff_eq] at hBi
      simp only [List.get_eq_getElem]
      exact ⟨hBi.1.1.1, hBi.1.1.2, hBi.1.2, hBi.2⟩
    · cases hS : streamPackets (p0 :: rest) with
      | nil => rw [hS] at hD; simp at hD
      | cons p1 t =>
        cases t with
        | nil => rw [hS] at hD; simp at hD
        | cons p2 r2 =>
          rw [hS] at hD
          simp only [Bool.and_eq_true] at hD
          exact ⟨p1, p2, r2, rfl, hD.1, hD.2⟩

theorem packetsFrom_bounded :
    ∀ (pages : List oggPage) (c : Option (List Nat)),
      (∀ cc, c = some cc → ∀ b ∈ cc, b < 256) →
      (∀ pg ∈ pages, pageWF pg = true) →
      (∀ p ∈ packetsFrom c pages, ∀ b ∈ p, b < 256)
      ∧ (∀ cc, scanFrom c pages = some cc → ∀ b ∈ cc, b < 256) := by
  intro pages
  induction pages with
  | nil =>
    intro c hc _
    refine ⟨?_, ?_⟩
    · intro p hp; simp [packetsFrom] at hp
    · intro cc hcc; exact hc cc hcc
  | cons pg rest ih =>
    intro c hc hwf
    have hseg : ∀ sg ∈ pg.segments, ∀ b ∈ sg, b < 256 := by
      intro sg hs
      exact (pageWF_segments (hwf pg (by simp)) sg hs).2
    obtain ⟨h1, h2⟩ := splitSegs_bytes (fun b => b < 256) pg.segments c hc hseg
    obtain ⟨ih1, ih2⟩ := ih (splitSegs c pg.segments).2 h2
      (fun q hq => hwf q (by simp [hq]))
    refine ⟨?_, ?_⟩
    · intro p hp
      rcases List.mem_append.mp (by simpa [packetsFrom] using hp) with hp1 | hp2
      · exact h1 p hp1
      · exact ih1 p hp2
    · intro cc hcc
      exact ih2 cc (by simpa [scanFrom] using hcc)

theorem streamPackets_split (pages : List oggPage) (i : Nat) (hi : i < pages.length) :
    streamPackets pages
      = packetsFrom none (pages.take i)
        ++ ((splitSegs (carryAt pages i) (pages.get ⟨i, hi⟩).segments).1
            ++ packetsFrom (splitSegs (carryAt pages i) (pages.get ⟨i, hi⟩).segments).2
                 (pages.drop (i + 1))) := by
  conv_lhs => rw [streamPackets, ← List.take_append_drop i pages]
  rw [packetsFrom_append]
  congr 1
  have hd : pages.drop i = pages.get ⟨i, hi⟩ :: pages.drop (i + 1) := by
    have hdd := List.drop_eq_getElem_cons hi
    simpa [List.get_eq_getElem] using hdd
  rw [hd]
  rfl

theorem streamPackets_get (pages : List oggPage) (i : Nat) (hi : i < pages.length)
    (m : Nat)
    (hm : m < (splitSegs (carryAt pages i) (pages.get ⟨i, hi⟩).segments).1.length) :
    (streamPackets pages)[completedBy pages i + m]?
      = (splitSegs (carryAt pages i) (pages.get ⟨i, hi⟩).segments).1[m]? := by
  rw [streamPackets_split pages i hi]
  rw [List.getElem?_append_right (by
    show (packetsFrom none (pages.take i)).length ≤ completedBy pages i + m
    have hL : (packetsFrom none (pages.take i)).length = completedBy pages i := rfl
    omega)]
  have hL : (packetsFrom none (pages.take i)).length = completedBy pages i := rfl
  rw [hL, Nat.add_sub_cancel_left]
  rw [List.getElem?_append_left hm]

theorem attachFlags_getElem (pg : oggPage) (e : Bool) (ps : List (List Nat)) (m : Nat) :
    ps[m]? = ((attachFlags pg e ps)[m]?).map (fun q => q.bytes) := by
  conv_lhs => rw [← attachFlags_bytes pg e ps]
  rw [List.getElem?_map]

theorem process_tags_noEdit (opt : options) (s : List (List Nat)) (p : List Nat)
    (hb : ∀ b ∈ p, b < 256) (hp : (parse_tags p).isSome = true)
    (hne : noEdit opt = true) :
    process_tags p opt true s = some (.packetIn p) := by
  obtain ⟨t, ht⟩ := Option.isSome_iff_exists.mp hp
  simp only [process_tags, ht, if_true]
  rw [editTags_noEdit opt s t hne, render_parse hb ht]

theorem runPages_raw (opt : options) (s : List (List Nat)) :
    ∀ (l : List oggPage) (st : loopSt), st.stop = false → 2 ≤ st.count →
      runPages opt true s l st
        = { st with out := st.out ++ l, pagesRead := st.pagesRead + l.length } := by
  intro l
  induction l with
  | nil =>
    intro st _ _
    simp [runPages]
  | cons pg rest ih =>
    intro st hs hc
    simp only [runPages]
    rw [if_neg (by simp [hs])]
    have hstep : stepPage opt true s st pg
        = { st with out := st.out ++ [pg], pagesRead := st.pagesRead + 1 } := by
      unfold stepPage
      rw [if_pos ⟨hc, rfl⟩]
    rw [hstep, ih _ (by exact hs) (by exact hc)]
    simp only [loopSt.mk.injEq, List.append_assoc, List.singleton_append,
      List.length_cons, true_and, and_true]
    omega

theorem stepPage_flush (opt : options) (s : List (List Nat)) (pages : List oggPage)
    (p1 p2 : List Nat) (prest : List (List Nat))
    (hstream : streamPackets pages = p1 :: p2 :: prest)
    (hv1 : validate_identification_header p1 = true)
    (hv2 : process_tags p2 opt true s = some (.packetIn p2))
    (i : Nat) (hi : i < pages.length) (st : loopSt)
    (he : st.error = none) (hs : st.stop = false)
    (hct : st.count = if i = 0 then (-1 : Int) else (completedBy pages i : Int))
    (hsr : st.serial = if i = 0 then none else some (firstSerial pages))
    (hbf : st.buf = none) (hcarry : carryAt pages i = none)
    (hwp : st.wpageno = i)
    (hci : completedBy pages i < 2)
    (hserial : (pages.get ⟨i, hi⟩).serialno = firstSerial pages)
    (hpageno : (pages.get ⟨i, hi⟩).pageno = i)
    (hbos : (pages.get ⟨i, hi⟩).bos = decide (i = 0))
    (hwf : pageWF (pages.get ⟨i, hi⟩) = true)
    (hwhole : wholesome (pages.get ⟨i, hi⟩) = true)
    (htail : completedBy pages (i + 1) = 2 →
        (pages.get ⟨i, hi⟩).eos = false ∧ (pages.get ⟨i, hi⟩).granulepos = 0) :
    (stepPage opt true s st (pages.get ⟨i, hi⟩)).error = none
    ∧ (stepPage opt true s st (pages.get ⟨i, hi⟩)).stop = false
    ∧ (stepPage opt true s st (pages.get ⟨i, hi⟩)).count
        = (completedBy pages (i + 1) : Int)
    ∧ (stepPage opt true s st (pages.get ⟨i, hi⟩)).serial = some (firstSerial pages)
    ∧ (stepPage opt true s st (pages.get ⟨i, hi⟩)).buf = carryAt pages (i + 1)
    ∧ (stepPage opt true s st (pages.get ⟨i, hi⟩)).wpageno = i + 1
    ∧ (stepPage opt true s st (pages.get ⟨i, hi⟩)).out
        = st.out ++ [pages.get ⟨i, hi⟩]
    ∧ (stepPage opt true s st (pages.get ⟨i, hi⟩)).printed = st.printed
    ∧ (stepPage opt true s st (pages.get ⟨i, hi⟩)).pagesRead = st.pagesRead + 1 := by
  obtain ⟨slast, hlastseg, hcont, hshort⟩ := wholesome_spec hwhole
  have hsegne : (pages.get ⟨i, hi⟩).segments ≠ [] := by
    intro habs; rw [habs] at hlastseg; simp at hlastseg
  have hle255 : ∀ sg ∈ (pages.get ⟨i, hi⟩).segments, sg.length ≤ 255 :=
    fun sg hsg => (pageWF_segments hwf sg hsg).1
  rcases hsp : splitSegs (none : Option (List Nat)) (pages.get ⟨i, hi⟩).segments
    with ⟨ps, c2⟩
  have hc2 : c2 = none := by
    have h2 := splitSegs_last_short (pages.get ⟨i, hi⟩).segments none slast
      hlastseg hshort
    rw [hsp] at h2
    exact h2
  subst hc2
  have hsp1 : (splitSegs (none : Option (List Nat))
      (pages.get ⟨i, hi⟩).segments).1 = ps := by rw [hsp]
  have hsp2 : (splitSegs (none : Option (List Nat))
      (pages.get ⟨i, hi⟩).segments).2 = none := by rw [hsp]
  have hps_ne : ps ≠ [] := by
    have h2 := splitSegs_fst_ne_nil (pages.get ⟨i, hi⟩).segments none hsegne hsp2
    rw [hsp1] at h2
    exact h2
  have hsegs : ps.flatMap lace = (pages.get ⟨i, hi⟩).segments :=
    (splitSegs_rebuild _ hle255).1 ps hsp
  obtain ⟨hs1, hs2⟩ := completedBy_succ pages i hi
  rw [hcarry, hsp] at hs1 hs2
  have hps_len : completedBy pages (i + 1) = completedBy pages i + ps.length := by
    rw [hs1]
  have hbuf_succ : carryAt pages (i + 1) = none := by
    rw [hs2]
  have hH : ∀ (m : Nat) (q : modelPacket),
      (attachFlags (pages.get ⟨i, hi⟩) true ps).get? m = some q →
      ((completedBy pages i : Int) + (m : Int) + 1 = 1 →
        validate_identification_header q.bytes = true)
      ∧ ((completedBy pages i : Int) + (m : Int) + 1 = 2 →
        process_tags q.bytes opt true s = some (.packetIn q.bytes)) := by
    intro m q hq
    rw [List.get?_eq_getElem?] at hq
    have hmlt : m < ps.length := by
      have hlen := attachFlags_length (pages.get ⟨i, hi⟩) true ps
      have hmq := (List.getElem?_eq_some.mp hq).1
      omega
    have hpm : ps[m]? = some q.bytes := by
      rw [attachFlags_getElem (pages.get ⟨i, hi⟩) true ps m, hq]
      rfl
    have hglob : (streamPackets pages)[completedBy pages i + m]? = some q.bytes := by
      rw [streamPackets_get pages i hi m (by rw [hcarry, hsp1]; exact hmlt)]
      rw [hcarry, hsp1]
      exact hpm
    constructor
    · intro hc1
      have hidx : completedBy pages i + m = 0 := by push_cast at hc1; omega
      rw [hidx, hstream] at hglob
      simp only [List.getElem?_cons_zero, Option.some.injEq] at hglob
      rw [← hglob]
      exact hv1
    · intro hcc
      have hidx : completedBy pages i + m = 1 := by push_cast at hcc; omega
      rw [hidx, hstream] at hglob
      simp only [List.getElem?_cons_succ, List.getElem?_cons_zero,
        Option.some.injEq] at hglob
      rw [← hglob]
      exact hv2
  have hnotsc : ¬(2 ≤ st.count ∧ (true : Bool) = true) := by
    rintro ⟨h2, _⟩
    rw [hct] at h2
    by_cases h0 : i = 0
    · rw [if_pos h0] at h2; omega
    · rw [if_neg h0] at h2
      have hcast : (completedBy pages i : Int) < 2 := by exact_mod_cast hci
      omega
  unfold stepPage
  rw [if_neg hnotsc]
  by_cases h0 : i = 0
  · subst h0
    rw [if_pos rfl] at hct hsr
    simp only [hct, hsr, hbf, hwp, reduceIte, Option.isSome_none]
    rw [if_neg (by
      rintro (hx | hx)
      · exact hx rfl
      · rw [hcont] at hx; exact hx rfl)]
    rw [hsp1, hsp2]
    simp only [Option.isNone_none]
    have hok := processPackets_ok opt s
      (attachFlags (pages.get ⟨0, hi⟩) true ps) (0 : Int) [] st.printed
      (le_refl 0) hH
    rw [hok]
    rw [if_neg (by simp)]
    refine ⟨he, hs, ?_, ?_, hbuf_succ.symm, rfl, ?_, rfl, rfl⟩
    · show (0 : Int) + ((attachFlags (pages.get ⟨0, hi⟩) true ps).length : Int)
        = (completedBy pages (0 + 1) : Int)
      rw [attachFlags_length, hps_len, completedBy_zero]
      push_cast
      omega
    · rw [hserial]
    · show st.out ++ [mkFlushPage (pages.get ⟨0, hi⟩).serialno 0
          ([] ++ replaceAt2 0 (attachFlags (pages.get ⟨0, hi⟩) true ps))]
        = st.out ++ [pages.get ⟨0, hi⟩]
      rw [List.nil_append, hserial]
      rw [mkFlushPage_eq (pages.get ⟨0, hi⟩) (firstSerial pages) 0 ps 0 hps_ne
        hsegs hcont hserial hpageno hbos
        (by
          intro hcc
          apply htail
          have hl2 : ps.length = 2 := by push_cast at hcc; omega
          rw [hps_len, completedBy_zero, hl2])]
  · rw [if_neg h0] at hct hsr
    have hge0 : (0 : Int) ≤ (completedBy pages i : Int) := by
      exact_mod_cast Nat.zero_le _
    have hne2 : ¬((completedBy pages i : Int) = -1) := by omega
    simp only [hct, hsr, hbf, hwp, Option.getD_some, if_neg hne2,
      Option.isSome_none]
    rw [if_neg (by
      rintro (hx | hx)
      · exact hx hserial
      · rw [hcont] at hx; exact hx rfl)]
    rw [hsp1, hsp2]
    simp only [Option.isNone_none]
    have hok := processPackets_ok opt s
      (attachFlags (pages.get ⟨i, hi⟩) true ps) (completedBy pages i : Int) []
      st.printed hge0 hH
    rw [hok]
    rw [if_neg (by simp)]
    refine ⟨he, hs, ?_, rfl, hbuf_succ.symm, rfl, ?_, rfl, rfl⟩
    · show (completedBy pages i : Int)
          + ((attachFlags (pages.get ⟨i, hi⟩) true ps).length : Int)
        = (completedBy pages (i + 1) : Int)
      rw [attachFlags_length, hps_len]
      push_cast
      omega
    · show st.out ++ [mkFlushPage (firstSerial pages) i
          ([] ++ replaceAt2 (completedBy pages i : Int)
            (attachFlags (pages.get ⟨i, hi⟩) true ps))]
        = st.out ++ [pages.get ⟨i, hi⟩]
      rw [List.nil_append]
      rw [mkFlushPage_eq (pages.get ⟨i, hi⟩) (firstSerial pages) i ps
        (completedBy pages i : Int) hps_ne hsegs hcont hserial hpageno hbos
        (by
          intro hcc
          apply htail
          rw [hps_len]
          push_cast at hcc
          omega)]

theorem runPages_flush (opt : options) (s : List (List Nat)) (pages : List oggPage)
    (p1 p2 : List Nat) (prest : List (List Nat))
    (hstream : streamPackets pages = p1 :: p2 :: prest)
    (hv1 : validate_identification_header p1 = true)
    (hv2 : process_tags p2 opt true s = some (.packetIn p2))
    (hWF : ∀ pg ∈ pages, pageWF pg = true ∧ pg.serialno = firstSerial pages)
    (hIdx : ∀ (j : Nat) (hj : j < pages.length),
        (pages.get ⟨j, hj⟩).pageno = j
        ∧ (pages.get ⟨j, hj⟩).bos = decide (j = 0)
        ∧ (pages.get ⟨j, hj⟩).continued = (carryAt pages j).isSome)
    (k : Nat) (hk : k < pages.length)
    (hclean : ∀ j, j ≤ k → ∀ (hj : j < pages.length),
        wholesome (pages.get ⟨j, hj⟩) = true)
    (htail : completedBy pages (k + 1) = 2 →
        (pages.get ⟨k, hk⟩).eos = false ∧ (pages.get ⟨k, hk⟩).granulepos = 0)
    (hk1 : completedBy pages k < 2) :
    ∀ i, i ≤ k + 1 →
      (runPages opt true s (pages.take i) initSt).error = none
      ∧ (runPages opt true s (pages.take i) initSt).stop = false
      ∧ (runPages opt true s (pages.take i) initSt).count
          = (if i = 0 then (-1 : Int) else (completedBy pages i : Int))
      ∧ (runPages opt true s (pages.take i) initSt).serial
          = (if i = 0 then none else some (firstSerial pages))
      ∧ (runPages opt true s (pages.take i) initSt).buf = none
      ∧ (runPages opt true s (pages.take i) initSt).wpageno = i
      ∧ (runPages opt true s (pages.take i) initSt).out = pages.take i
      ∧ (runPages opt true s (pages.take i) initSt).printed = none
      ∧ (runPages opt true s (pages.take i) initSt).pagesRead = i := by
  intro i
  induction i with
  | zero =>
    intro _
    exact ⟨rfl, rfl, rfl, rfl, rfl, rfl, rfl, rfl, rfl⟩
  | succ i ih =>
    intro hik
    have hilt : i < pages.length := by omega
    obtain ⟨he, hs, hct, hsr, hbf, hwp, hout, hpr, hrd⟩ := ih (by omega)
    have hcarry : carryAt pages i = none :=
      carryAt_none_of_wholesome pages i (by omega)
        (fun j hj hjl => hclean j (by omega) hjl)
    have hci : completedBy pages i < 2 :=
      lt_of_le_of_lt (completedBy_mono pages (by omega : i ≤ k)) hk1
    have htaili : completedBy pages (i + 1) = 2 →
        (pages.get ⟨i, hilt⟩).eos = false
        ∧ (pages.get ⟨i, hilt⟩).granulepos = 0 := by
      intro h2
      by_cases hik2 : i = k
      · subst hik2
        exact htail h2
      · exfalso
        have hmono := completedBy_mono pages (by omega : i + 1 ≤ k)
        omega
    obtain ⟨hwf, hser⟩ := hWF (pages.get ⟨i, hilt⟩) (List.get_mem pages i hilt)
    obtain ⟨hpageno, hbos, hcontv⟩ := hIdx i hilt
    have hstep := stepPage_flush opt s pages p1 p2 prest hstream hv1 hv2 i hilt
      (runPages opt true s (pages.take i) initSt) he hs hct hsr hbf hcarry hwp
      hci hser hpageno hbos hwf (hclean i (by omega) hilt) htaili
    rw [take_succ_get pages i hilt, runPages_append]
    rw [show runPages opt true s [pages.get ⟨i, hilt⟩]
          (runPages opt true s (pages.take i) initSt)
        = stepPage opt true s (runPages opt true s (pages.take i) initSt)
            (pages.get ⟨i, hilt⟩) from by simp [runPages, hs]]
    obtain ⟨h1, h2, h3, h4, h5, h6, h7, h8, h9⟩ := hstep
    have hcarry2 : carryAt pages (i + 1) = none :=
      carryAt_none_of_wholesome pages (i + 1) (by omega)
        (fun j hj hjl => hclean j (by omega) hjl)
    refine ⟨h1, h2, ?_, ?_, h5.trans hcarry2, h6, ?_, ?_, ?_⟩
    · rw [h3, if_neg (by omega)]
    · rw [h4, if_neg (by omega)]
    · rw [h7, hout, ← take_succ_get pages i hilt]
    · rw [h8, hpr]
    · rw [h9, hrd]

set_option maxRecDepth 8000 in
theorem write_page_nsegs_outB : (write_page cxOutB)[26]? = some 0 := rfl

set_option maxRecDepth 8000 in
theorem write_page_nsegs_page1 : (write_page cxPage1)[26]? = some 1 := rfl

/-- C1 (amended): running the core in write mode with no edit operations
requested reproduces the input byte stream exactly, for every valid
two-header-plus-N-packet Ogg/Opus stream in which every page up to and
including the one that completes the comment header consists of whole
packets (no continuation into or out of such a page), and in which, when
the comment header is the last packet completed on its page, that page
carries granule position 0 and no end-of-stream flag.  Without the italic
proviso the claim is false: see the counterexample, where the comment
header spans a page boundary and the rewritten stream differs. -/
theorem C1_round_trip (canon : String → Option String) (fileExists : String → Bool)
    (opt : options) (pages : List oggPage) (stdin : List (List Nat)) (k : Nat)
    (hv : validStream pages = true)
    (hne : noEdit opt = true)
    (hip : opt.inplace = none)
    (hpo : opt.path_out ≠ "")
    (hsf : same_file canon opt.path_in opt.path_out = false)
    (hov : opt.overwrite = true)
    (hk : k < pages.length)
    (hk1 : completedBy pages k < 2)
    (hk2 : 2 ≤ completedBy pages (k + 1))
    (hclean : ∀ j, j ≤ k → ∀ (hj : j < pages.length),
        wholesome (pages.get ⟨j, hj⟩) = true)
    (htail : completedBy pages (k + 1) = 2 →
        (pages.get ⟨k, hk⟩).eos = false ∧ (pages.get ⟨k, hk⟩).granulepos = 0) :
    (run canon fileExists opt pages stdin).exitCode = 0
    ∧ streamBytes (run canon fileExists opt pages stdin).output
        = streamBytes pages := by
  obtain ⟨hlen0, hWFs, hIdx4, hscan, p1, p2, prest, hstream, hv1, hp2⟩ :=
    validStream_parts hv
  have hIdx : ∀ (j : Nat) (hj : j < pages.length),
      (pages.get ⟨j, hj⟩).pageno = j
      ∧ (pages.get ⟨j, hj⟩).bos = decide (j = 0)
      ∧ (pages.get ⟨j, hj⟩).continued = (carryAt pages j).isSome := by
    intro j hj
    obtain ⟨a, b, _, c⟩ := hIdx4 j hj
    exact ⟨a, b, c⟩
  have hbdd := (packetsFrom_bounded pages none
      (fun cc h => absurd h (by simp))
      (fun pg hpg => (hWFs pg hpg).1)).1
  have hb2 : ∀ b ∈ p2, b < 256 := by
    intro b hb
    refine hbdd p2 ?_ b hb
    rw [show packetsFrom none pages = streamPackets pages from rfl, hstream]
    simp
  have hv2 : process_tags p2 opt true stdin = some (.packetIn p2) :=
    process_tags_noEdit opt stdin p2 hb2 hp2 hne
  obtain ⟨he, hs, hct, hsr, hbf, hwp, hout, hpr, hrd⟩ :=
    runPages_flush opt stdin pages p1 p2 prest hstream hv1 hv2
      hWFs hIdx k hk hclean htail hk1 (k + 1) (le_refl _)
  rw [if_neg (by omega : ¬(k + 1 = 0))] at hct hsr
  have hw : writeModeOf opt = true := writeModeOf_true opt hip hpo
  unfold run
  rw [if_neg (by simp [hsf])]
  rw [if_neg (by simp [hov])]
  rw [hw]
  rw [show runPages opt true stdin pages initSt
      = runPages opt true stdin (pages.take (k + 1) ++ pages.drop (k + 1)) initSt
    from by rw [List.take_append_drop]]
  rw [runPages_append]
  rw [runPages_raw opt stdin (pages.drop (k + 1)) _ hs
    (by rw [hct]; exact_mod_cast hk2)]
  constructor
  · rw [finishRun_exit_zero_iff]
    refine ⟨he, ?_⟩
    show 2 ≤ (runPages opt true stdin (pages.take (k + 1)) initSt).count
    rw [hct]
    exact_mod_cast hk2
  · rw [finishRun_output]
    show streamBytes ((runPages opt true stdin (pages.take (k + 1)) initSt).out
        ++ pages.drop (k + 1)) = streamBytes pages
    rw [hout, List.take_append_drop]

/-- C1 witness: the three-page example stream round-trips bit-exactly; its
comment header completes on page 1 together with the page flags the
proviso requires. -/
theorem C1_witness :
    (run noCanon noFile exWriteOpt exPages []).exitCode = 0
    ∧ streamBytes (run noCanon noFile exWriteOpt exPages []).output
        = streamBytes exPages :=
  C1_round_trip noCanon noFile exWriteOpt exPages [] 1
    (by decide) (by decide) rfl (by decide) (by decide) rfl
    (by decide) (by decide) (by decide)
    (by
      intro j hj hjl
      interval_cases j
      · show wholesome exIdPage = true
        decide
      · show wholesome exTagPage = true
        decide)
    (by intro _; exact ⟨by decide, by decide⟩)

set_option maxRecDepth 8000 in
/-- C1 counterexample to the claim as stated: a valid stream whose comment
header spans a page boundary is rewritten with different pagination (the
first comment-header page loses its payload to the next flush), so the
output bytes differ from the input even though no edit was requested and
the run succeeds. -/
theorem C1_counterexample :
    validStream cxPages = true
    ∧ noEdit exWriteOpt = true
    ∧ (run noCanon noFile exWriteOpt cxPages []).exitCode = 0
    ∧ streamBytes (run noCanon noFile exWriteOpt cxPages []).output
        ≠ streamBytes cxPages := by
  refine ⟨by decide, by decide, by decide, ?_⟩
  have hout : (run noCanon noFile exWriteOpt cxPages []).output
      = [cxPage0, cxOutB, cxOutC] := by decide
  rw [hout]
  intro habs
  have h2 : write_page cxOutB ++ write_page cxOutC
      = write_page cxPage1 ++ write_page cxPage2 := by
    simp only [streamBytes, cxPages, List.flatMap_cons, List.flatMap_nil,
      List.append_nil] at habs
    exact List.append_cancel_left habs
  have hL := congrArg (fun l => l[26]?) h2
  simp only at hL
  rw [List.getElem?_append_left (by decide),
    List.getElem?_append_left (by decide)] at hL
  rw [write_page_nsegs_outB, write_page_nsegs_page1] at hL
  exact absurd hL (by decide)

end Opustags
